import Mathlib

/-!
A singly-linked string queue (`queue.c`).

Shallow embedding of `q_new`, `q_free`, `q_insert_head`, `q_insert_tail`,
`q_remove_head`, `q_size`, `q_reverse` and `q_sort`.

Memory is passed explicitly.  A pointer is an `Option Addr` (`none` is `NULL`).
Node blocks and string blocks live in two maps from addresses to contents; an
address that maps to `none` is not allocated.  A function that reads or writes
memory returns an `Option`: `none` means that the C execution has no defined
result (a read, write or `free` through a pointer to a block that is not
allocated, a write past the end of the caller's buffer, or - in the loop
models - exhausted fuel).
The result of each `malloc` call is an argument of the function that makes the
call (`none`: the allocation failed; `some a`: the block at `a`).
-/

namespace QueueC

/-- An address of an allocated block. -/
abbrev Addr := Nat

/-- Modelled from the spec: `list_ele_t` is declared in `queue.h`, which is
missing; a node holds the pointer to its string (`value`) and the pointer to
the following node (`next`). -/
structure list_ele_t where
  value : Addr
  next : Option Addr
deriving DecidableEq

/-- Modelled from the spec: `queue_t` is declared in `queue.h`, which is
missing; a queue holds `head`, `tail` and the cached `size`. -/
structure queue_t where
  head : Option Addr
  tail : Option Addr
  size : Int
deriving DecidableEq

/-- The heap: the allocated node blocks and the allocated string blocks (the
bytes of a string block include its terminator). -/
structure Mem where
  nodes : Addr → Option list_ele_t
  strs : Addr → Option (List Nat)

/-- The heap with nothing allocated. -/
def emptyMem : Mem := ⟨fun _ => none, fun _ => none⟩

/-- Pointwise update of a map. -/
def upd {β : Type} (f : Addr → β) (a : Addr) (v : β) : Addr → β :=
  fun x => if x = a then v else f x

/-- The number of values of `size_t` (a 64-bit platform). -/
def SIZE_MOD : Nat := 2 ^ 64

/-- The C string stored at the start of a byte sequence: the bytes before the
first zero byte. -/
def cstr (bytes : List Nat) : List Nat := bytes.takeWhile (fun b => b ≠ 0)

/-- The function `strlen` of the C library. -/
def strlen (bytes : List Nat) : Nat := (cstr bytes).length

/-- The function `strncpy(dst, src, n)` of the C library: exactly `n` bytes of
`dst` are written, the first `min n (strlen src)` bytes of `src` followed by
zero bytes; writing past the end of `dst` has no defined result. -/
def strncpy (dst src : List Nat) (n : Nat) : Option (List Nat) :=
  if n ≤ dst.length then
    some ((cstr src).take n ++ List.replicate (n - strlen src) 0 ++ dst.drop n)
  else none

/-- The assignment `sp[i] = b` into the caller's buffer. -/
def store (dst : List Nat) (i b : Nat) : Option (List Nat) :=
  if i < dst.length then some (dst.set i b) else none

/-- The function `q_new`; `p` is the result of its `malloc`. -/
def q_new (p : Option Addr) : Option queue_t :=
  match p with
  | none => none
  | some _ => some ⟨none, none, 0⟩

/-- The loop of `q_free`: `h` is `q->head`. -/
def q_free_loop : Nat → Mem → Option Addr → Option Mem
  | _, m, none => some m
  | 0, _, some _ => none
  | fuel + 1, m, some h =>
    match m.nodes h with
    | none => none
    | some tmp =>
      match m.strs tmp.value with
      | none => none
      | some _ =>
        q_free_loop fuel ⟨upd m.nodes h none, upd m.strs tmp.value none⟩ tmp.next

/-- The function `q_free`: the heap after the call (the queue block itself is
released by the final `free(q)`). -/
def q_free (fuel : Nat) (m : Mem) (q : Option queue_t) : Option Mem :=
  match q with
  | none => some m
  | some qq => q_free_loop fuel m qq.head

/-- The function `q_insert_head`; `newh` and `new_s` are the results of its two
`malloc` calls.  Returns the boolean result, the heap and the queue. -/
def q_insert_head (m : Mem) (q : Option queue_t) (s : List Nat)
    (newh new_s : Option Addr) : Option (Bool × Mem × Option queue_t) :=
  match q with
  | none => some (false, m, none)
  | some qq =>
    match newh with
    | none => some (false, m, q)
    | some h =>
      -- the fields of the fresh block are indeterminate until assigned
      let m1 : Mem := ⟨upd m.nodes h (some ⟨0, none⟩), m.strs⟩
      match new_s with
      | none => some (false, ⟨upd m1.nodes h none, m1.strs⟩, q)
      | some p =>
        match strncpy (List.replicate (strlen s + 1) 0) s (strlen s + 1) with
        | none => none
        | some bytes =>
          let m2 : Mem := ⟨m1.nodes, upd m1.strs p (some bytes)⟩
          let m3 : Mem := ⟨upd m2.nodes h (some ⟨p, qq.head⟩), m2.strs⟩
          let q1 : queue_t := ⟨some h, qq.tail, qq.size⟩
          let q2 : queue_t := if q1.tail = none then ⟨q1.head, q1.head, q1.size⟩ else q1
          some (true, m3, some ⟨q2.head, q2.tail, q2.size + 1⟩)

/-- The function `q_insert_tail`; `newt` and `new_s` are the results of its two
`malloc` calls.  Returns the boolean result, the heap and the queue. -/
def q_insert_tail (m : Mem) (q : Option queue_t) (s : List Nat)
    (newt new_s : Option Addr) : Option (Bool × Mem × Option queue_t) :=
  match q with
  | none => some (false, m, none)
  | some qq =>
    match newt with
    | none => some (false, m, q)
    | some t =>
      let m1 : Mem := ⟨upd m.nodes t (some ⟨0, none⟩), m.strs⟩
      match new_s with
      | none => some (false, ⟨upd m1.nodes t none, m1.strs⟩, q)
      | some p =>
        match strncpy (List.replicate (strlen s + 1) 0) s (strlen s + 1) with
        | none => none
        | some bytes =>
          let m2 : Mem := ⟨m1.nodes, upd m1.strs p (some bytes)⟩
          let m3 : Mem := ⟨upd m2.nodes t (some ⟨p, none⟩), m2.strs⟩
          match qq.tail with
          | none => some (true, m3, some ⟨some t, some t, qq.size + 1⟩)
          | some old =>
            -- q->tail->next = newt
            match m3.nodes old with
            | none => none
            | some nd =>
              some (true, ⟨upd m3.nodes old (some ⟨nd.value, some t⟩), m3.strs⟩,
                some ⟨qq.head, some t, qq.size + 1⟩)

/-- The copy into the caller's buffer made by `q_remove_head` when `sp` is not
`NULL`, for a type `size_t` of `M` values: `value` is the string block of the
head node. -/
def copy_out_mod (M : Nat) (sp value : List Nat) (bufsize : Nat) : Option (List Nat) :=
  let len := strlen value + 1
  let len := if bufsize < len then bufsize else len
  -- len - 1 in size_t arithmetic
  let n := (M + len - 1) % M
  match strncpy sp value n with
  | none => none
  | some sp1 => store sp1 n 0

/-- The copy into the caller's buffer made by `q_remove_head` when `sp` is not
`NULL`. -/
def copy_out (sp value : List Nat) (bufsize : Nat) : Option (List Nat) :=
  copy_out_mod SIZE_MOD sp value bufsize

/-- The function `q_remove_head`; `sp` is the caller's buffer (`none`: `NULL`).
Returns the boolean result, the heap, the queue and the buffer. -/
def q_remove_head (m : Mem) (q : Option queue_t) (sp : Option (List Nat)) (bufsize : Nat) :
    Option (Bool × Mem × Option queue_t × Option (List Nat)) :=
  match q with
  | none => some (false, m, none, sp)
  | some qq =>
    match qq.head with
    | none => some (false, m, q, sp)
    | some h =>
      match m.nodes h with
      | none => none
      | some tmp =>
        match m.strs tmp.value with
        | none => none
        | some value =>
          let out : Option (Option (List Nat)) :=
            match sp with
            | none => some none
            | some buf => (copy_out buf value bufsize).map some
          match out with
          | none => none
          | some sp1 =>
            some (true, ⟨upd m.nodes h none, upd m.strs tmp.value none⟩,
              some ⟨tmp.next, qq.tail, qq.size - 1⟩, sp1)

/-- The function `q_size`. -/
def q_size (q : Option queue_t) : Int :=
  match q with
  | none => 0
  | some qq => qq.size

/-- The loop of `q_reverse`: `head` is `q->head`, `curr` the loop variable. -/
def q_reverse_loop : Nat → Mem → Option Addr → Option Addr → Option (Mem × Option Addr)
  | _, m, head, none => some (m, head)
  | 0, _, _, some _ => none
  | fuel + 1, m, head, some c =>
    match m.nodes c with
    | none => none
    | some nd =>
      q_reverse_loop fuel ⟨upd m.nodes c (some ⟨nd.value, head⟩), m.strs⟩ (some c) nd.next

/-- The function `q_reverse`. -/
def q_reverse (fuel : Nat) (m : Mem) (q : Option queue_t) : Option (Mem × Option queue_t) :=
  match q with
  | none => some (m, none)
  | some qq =>
    match qq.head with
    | none => some (m, q)
    | some h =>
      match q_reverse_loop fuel m none (some h) with
      | none => none
      | some (m1, head) => some (m1, some ⟨head, some h, qq.size⟩)

/-- The function `q_sort`: its body is `if (q) return;`. -/
def q_sort (m : Mem) (q : Option queue_t) : Mem × Option queue_t := (m, q)

/-- A call of a public operation on an existing queue, together with the
results of the `malloc` calls it makes (and the fuel of the loop model). -/
inductive Op where
  | insert_head (s : List Nat) (newh new_s : Option Addr)
  | insert_tail (s : List Nat) (newt new_s : Option Addr)
  | remove_head (sp : Option (List Nat)) (bufsize : Nat)
  | reverse (fuel : Nat)
  | sort

/-- The contract of `malloc`: the block it returns is not allocated at the
time of the call. -/
def fresh {β : Type} (live : Addr → Option β) : Option Addr → Bool
  | none => true
  | some a => (live a).isNone

/-- The contract of `malloc` for the calls made by an operation. -/
def allocOk (m : Mem) : Op → Bool
  | .insert_head _ newh new_s => fresh m.nodes newh && fresh m.strs new_s
  | .insert_tail _ newt new_s => fresh m.nodes newt && fresh m.strs new_s
  | _ => true

/-- One public operation applied to an existing queue: its boolean result
(`true` for `reverse` and `sort`, which return nothing), the heap and the
queue after the call. -/
def step (st : Mem × queue_t) (op : Op) : Option (Bool × Mem × queue_t) :=
  if allocOk st.1 op then
    match op with
    | .insert_head s newh new_s =>
      match q_insert_head st.1 (some st.2) s newh new_s with
      | some (r, m, some q) => some (r, m, q)
      | _ => none
    | .insert_tail s newt new_s =>
      match q_insert_tail st.1 (some st.2) s newt new_s with
      | some (r, m, some q) => some (r, m, q)
      | _ => none
    | .remove_head sp bufsize =>
      match q_remove_head st.1 (some st.2) sp bufsize with
      | some (r, m, some q, _) => some (r, m, q)
      | _ => none
    | .reverse fuel =>
      match q_reverse fuel st.1 (some st.2) with
      | some (m, some q) => some (true, m, q)
      | _ => none
    | .sort =>
      match q_sort st.1 (some st.2) with
      | (m, some q) => some (true, m, q)
      | _ => none
  else none

/-- A finite sequence of public operations applied to an existing queue. -/
def run : List Op → Mem × queue_t → Option (Mem × queue_t)
  | [], st => some st
  | op :: ops, st =>
    match step st op with
    | none => none
    | some (_, st1) => run ops st1

/-- The states reachable from `q_new` by a finite sequence of calls of
`q_insert_head`, `q_insert_tail`, `q_remove_head`, `q_reverse` and `q_sort`. -/
def Reachable (m : Mem) (q : queue_t) : Prop :=
  ∃ (m0 : Mem) (p : Option Addr) (q0 : queue_t) (ops : List Op),
    q_new p = some q0 ∧ run ops (m0, q0) = some (m, q)

/-- Following `next` from `p` visits exactly the allocated nodes `as`, in this
order, and then reaches `NULL`. -/
def isChain (m : Mem) : Option Addr → List Addr → Bool
  | p, [] => p.isNone
  | p, a :: as =>
    decide (p = some a) &&
      (match m.nodes a with
       | none => false
       | some nd => isChain m nd.next as)

/-- The strings held by the nodes `as`, when every node and its string block
is allocated. -/
def valuesOf (m : Mem) : List Addr → Option (List (List Nat))
  | [] => some []
  | a :: as =>
    match m.nodes a with
    | none => none
    | some nd =>
      match m.strs nd.value with
      | none => none
      | some bytes => (valuesOf m as).map (fun vs => cstr bytes :: vs)

/-- The string pointers of the nodes `as`. -/
def strPtrs (m : Mem) (as : List Addr) : List Addr :=
  as.filterMap (fun a => (m.nodes a).map (fun nd => nd.value))

/-- The queue content seen from the pointer `p`: the chain from `p` is the
nodes `as`, they hold the strings `vs`, and no two of them share a string
block. -/
def Holds (m : Mem) (p : Option Addr) (as : List Addr) (vs : List (List Nat)) : Prop :=
  isChain m p as = true ∧ valuesOf m as = some vs ∧ (strPtrs m as).Nodup

/-- The number of nodes reachable from `p` by following `next` (`none` when a
node is not allocated or the fuel runs out). -/
def chainLength : Nat → Mem → Option Addr → Option Nat
  | _, _, none => some 0
  | 0, _, some _ => none
  | fuel + 1, m, some a =>
    match m.nodes a with
    | none => none
    | some nd => (chainLength fuel m nd.next).map (fun n => n + 1)

/-- The buffer arguments of `q_remove_head` for which the copy is defined: no
buffer, or a buffer of at least `bufsize` bytes with `1 ≤ bufsize`. -/
def bufOk (sp : Option (List Nat)) (bufsize : Nat) : Prop :=
  match sp with
  | none => True
  | some buf => 1 ≤ bufsize ∧ bufsize ≤ buf.length ∧ bufsize < SIZE_MOD

/-- The queue made by `q_new`. -/
def q0 : queue_t := ⟨none, none, 0⟩

/-- The string held by the head node of a queue (`none` when the queue is
empty or the node or its string is not allocated). -/
def headValue (m : Mem) (q : queue_t) : Option (List Nat) :=
  match q.head with
  | none => none
  | some a =>
    match m.nodes a with
    | none => none
    | some nd => (m.strs nd.value).map cstr

/-- A heap with the two-element queue `"a"`, `"b"`. -/
def mem2 : Mem :=
  ⟨upd (upd emptyMem.nodes 2 (some ⟨2, none⟩)) 1 (some ⟨1, some 2⟩),
   upd (upd emptyMem.strs 2 (some [98, 0])) 1 (some [97, 0])⟩

/-- The queue of `mem2`. -/
def queue2 : queue_t := ⟨some 1, some 2, 2⟩

/-- A heap with the one-element queue `"ab"`. -/
def mem1 : Mem :=
  ⟨upd emptyMem.nodes 1 (some ⟨1, none⟩), upd emptyMem.strs 1 (some [97, 98, 0])⟩

/-- The queue of `mem1`. -/
def queue1 : queue_t := ⟨some 1, some 1, 1⟩

/-- The calls `q_insert_head(q, "a")` and `q_remove_head(q, NULL, 0)`, which
empty a queue again. -/
def drainOps : List Op := [.insert_head [97] (some 1) (some 1), .remove_head none 0]

/-- The contribution of one call to the count "insertions that returned true
minus removals that returned true"; `r` is the boolean result of the call. -/
def netEffect (op : Op) (r : Bool) : Int :=
  match op with
  | .insert_head _ _ _ => if r then 1 else 0
  | .insert_tail _ _ _ => if r then 1 else 0
  | .remove_head _ _ => if r then -1 else 0
  | .reverse _ => 0
  | .sort => 0

/-- A finite sequence of public operations applied to an existing queue: the
number of insertions that returned true minus the number of removals that
returned true, and the final state. -/
def runNet : List Op → Mem × queue_t → Option (Int × Mem × queue_t)
  | [], st => some (0, st)
  | op :: ops, st =>
    match step st op with
    | none => none
    | some (r, st1) =>
      match runNet ops st1 with
      | none => none
      | some (n, st2) => some (netEffect op r + n, st2)

/-- The strings read from the pointer `p` by following `next` (`none` when a
node or its string is not allocated, or the fuel runs out). -/
def valuesFrom : Nat → Mem → Option Addr → Option (List (List Nat))
  | _, _, none => some []
  | 0, _, some _ => none
  | fuel + 1, m, some a =>
    match m.nodes a with
    | none => none
    | some nd =>
      match m.strs nd.value with
      | none => none
      | some bytes => (valuesFrom fuel m nd.next).map (fun vs => cstr bytes :: vs)

/-- A well-formed queue with chain `as`: following `next` from `head` visits
the nodes `as` and reaches `NULL` (the chain is finite and acyclic), `tail` is
`NULL` when the chain is empty and its last node otherwise, and `size` is the
length of the chain. -/
def WellFormed (m : Mem) (q : queue_t) (as : List Addr) : Prop :=
  isChain m q.head as = true ∧ q.tail = as.getLast? ∧ q.size = (as.length : Int)

/-- The calls `q_insert_tail(q, "b")`, `q_insert_tail(q, "a")` and
`q_insert_tail(q, "c")`. -/
def bacOps : List Op :=
  [.insert_tail [98] (some 1) (some 1), .insert_tail [97] (some 2) (some 2),
   .insert_tail [99] (some 3) (some 3)]

/-! ## Chains -/

theorem upd_same {β : Type} (f : Addr → β) (a : Addr) (v : β) : upd f a v a = v := by
  simp [upd]

theorem upd_other {β : Type} (f : Addr → β) (a x : Addr) (v : β) (h : x ≠ a) :
    upd f a v x = f x := by
  simp [upd, h]

theorem isChain_nil (m : Mem) (p : Option Addr) : isChain m p [] = true ↔ p = none := by
  cases p <;> simp [isChain]

theorem isChain_cons (m : Mem) (p : Option Addr) (a : Addr) (as : List Addr) :
    isChain m p (a :: as) = true ↔
      p = some a ∧ ∃ nd, m.nodes a = some nd ∧ isChain m nd.next as = true := by
  rw [isChain]
  cases h : m.nodes a <;> simp

theorem isChain_frame (m m1 : Mem) (as : List Addr) :
    ∀ p, (∀ x ∈ as, m1.nodes x = m.nodes x) → isChain m1 p as = isChain m p as := by
  induction as with
  | nil => intro p _; simp [isChain]
  | cons a as ih =>
    intro p h
    have ha : m1.nodes a = m.nodes a := h a (List.mem_cons_self a as)
    have hr : ∀ x ∈ as, m1.nodes x = m.nodes x := fun x hx => h x (List.mem_cons_of_mem a hx)
    unfold isChain
    rw [ha]
    cases m.nodes a with
    | none => rfl
    | some nd => simp only [ih nd.next hr]

theorem isChain_unique (m : Mem) (l1 : List Addr) :
    ∀ (l2 : List Addr) (p : Option Addr),
      isChain m p l1 = true → isChain m p l2 = true → l1 = l2 := by
  induction l1 with
  | nil =>
    intro l2 p h1 h2
    cases l2 with
    | nil => rfl
    | cons b bs =>
      rw [isChain_nil] at h1
      rw [isChain_cons] at h2
      rw [h1] at h2
      exact absurd h2.1 (by simp)
  | cons a as ih =>
    intro l2 p h1 h2
    cases l2 with
    | nil =>
      rw [isChain_nil] at h2
      rw [isChain_cons] at h1
      rw [h2] at h1
      exact absurd h1.1 (by simp)
    | cons b bs =>
      rw [isChain_cons] at h1 h2
      obtain ⟨hp1, nd1, hn1, hc1⟩ := h1
      obtain ⟨hp2, nd2, hn2, hc2⟩ := h2
      have hab : a = b := by
        rw [hp1] at hp2
        exact Option.some.inj hp2
      subst hab
      rw [hn1] at hn2
      have hnd : nd1 = nd2 := Option.some.inj hn2
      subst hnd
      rw [ih bs nd1.next hc1 hc2]

theorem isChain_suffix (m : Mem) (l1 : List Addr) (a : Addr) (l2 : List Addr) :
    ∀ p, isChain m p (l1 ++ a :: l2) = true → isChain m (some a) (a :: l2) = true := by
  induction l1 with
  | nil =>
    intro p h
    have h1 := h
    simp only [List.nil_append] at h1
    rw [isChain_cons] at h1
    rw [← h1.1]
    exact h
  | cons b bs ih =>
    intro p h
    simp only [List.cons_append] at h
    rw [isChain_cons] at h
    obtain ⟨_, nd, _, hc⟩ := h
    exact ih nd.next hc

theorem isChain_head_not_mem (m : Mem) (p : Option Addr) (a : Addr) (as : List Addr)
    (h : isChain m p (a :: as) = true) : a ∉ as := by
  intro hmem
  obtain ⟨l1, l2, hsplit⟩ := List.append_of_mem hmem
  obtain ⟨hp, nd, _, hc⟩ := (isChain_cons m p a as).1 h
  have h1 : isChain m (some a) (a :: as) = true := by rw [← hp]; exact h
  rw [hsplit] at hc
  have h2 := isChain_suffix m l1 a l2 _ hc
  have heq := isChain_unique m (a :: as) (a :: l2) (some a) h1 h2
  have hlen : as.length = l2.length := by
    have := congrArg List.length heq
    simpa using this
  rw [hsplit] at hlen
  simp at hlen
  omega

theorem isChain_nodup (m : Mem) (as : List Addr) :
    ∀ p, isChain m p as = true → as.Nodup := by
  induction as with
  | nil => intro _ _; exact List.nodup_nil
  | cons a as ih =>
    intro p h
    have hnm := isChain_head_not_mem m p a as h
    obtain ⟨_, nd, _, hc⟩ := (isChain_cons m p a as).1 h
    exact List.nodup_cons.2 ⟨hnm, ih nd.next hc⟩

theorem valuesOf_frame (m m1 : Mem) (as : List Addr)
    (hn : ∀ x ∈ as, m1.nodes x = m.nodes x)
    (hs : ∀ x ∈ as, ∀ nd, m.nodes x = some nd → m1.strs nd.value = m.strs nd.value) :
    valuesOf m1 as = valuesOf m as := by
  induction as with
  | nil => rfl
  | cons a as ih =>
    have ha : m1.nodes a = m.nodes a := hn a (List.mem_cons_self a as)
    have ih1 := ih (fun x hx => hn x (List.mem_cons_of_mem a hx))
      (fun x hx => hs x (List.mem_cons_of_mem a hx))
    unfold valuesOf
    rw [ha]
    cases hnd : m.nodes a with
    | none => rfl
    | some nd =>
      simp only
      rw [hs a (List.mem_cons_self a as) nd hnd, ih1]

theorem strPtrs_frame (m m1 : Mem) (as : List Addr)
    (hn : ∀ x ∈ as, m1.nodes x = m.nodes x) : strPtrs m1 as = strPtrs m as := by
  induction as with
  | nil => rfl
  | cons a as ih =>
    have ha : m1.nodes a = m.nodes a := hn a (List.mem_cons_self a as)
    have ih1 := ih (fun x hx => hn x (List.mem_cons_of_mem a hx))
    unfold strPtrs at ih1 ⊢
    simp only [List.filterMap_cons, ha, ih1]

theorem mem_strPtrs (m : Mem) (as : List Addr) (x : Addr) (nd : list_ele_t)
    (hx : x ∈ as) (hnd : m.nodes x = some nd) : nd.value ∈ strPtrs m as := by
  unfold strPtrs
  rw [List.mem_filterMap]
  exact ⟨x, hx, by simp [hnd]⟩

theorem strPtrs_cons (m : Mem) (a : Addr) (as : List Addr) (nd : list_ele_t)
    (hnd : m.nodes a = some nd) : strPtrs m (a :: as) = nd.value :: strPtrs m as := by
  unfold strPtrs
  simp [List.filterMap_cons, hnd]

theorem valuesOf_cons (m : Mem) (a : Addr) (as : List Addr) (v : List Nat)
    (vs : List (List Nat)) (h : valuesOf m (a :: as) = some (v :: vs)) :
    ∃ nd bytes, m.nodes a = some nd ∧ m.strs nd.value = some bytes ∧ cstr bytes = v ∧
      valuesOf m as = some vs := by
  unfold valuesOf at h
  cases hnd : m.nodes a with
  | none => simp [hnd] at h
  | some nd =>
    cases hb : m.strs nd.value with
    | none => simp [hnd, hb] at h
    | some bytes =>
      cases hv : valuesOf m as with
      | none => simp [hnd, hb, hv] at h
      | some ws =>
        simp [hnd, hb, hv] at h
        exact ⟨nd, bytes, rfl, hb, h.1, by rw [h.2]⟩

/-! ## Strings and the caller's buffer -/

theorem cstr_append_zero (s : List Nat) : cstr (cstr s ++ [0]) = cstr s := by
  unfold cstr
  induction s with
  | nil => simp
  | cons b t ih =>
    by_cases hb : b = 0
    · simp [List.takeWhile_cons, hb]
    · have hd : decide (b ≠ 0) = true := by simp [hb]
      rw [List.takeWhile_cons, hd]
      simp only [if_true, List.cons_append]
      rw [List.takeWhile_cons, hd]
      simp only [if_true]
      rw [ih]

theorem strncpy_block (s : List Nat) :
    strncpy (List.replicate (strlen s + 1) 0) s (strlen s + 1) = some (cstr s ++ [0]) := by
  unfold strncpy strlen
  simp

theorem copy_out_mod_eq (M : Nat) (buf value : List Nat) (bufsize : Nat)
    (h1 : 1 ≤ bufsize) (h2 : bufsize ≤ buf.length) (h3 : bufsize < M) :
    copy_out_mod M buf value bufsize =
      some ((cstr value).take (min bufsize (strlen value + 1) - 1) ++
        0 :: buf.drop (min bufsize (strlen value + 1))) := by
  have hlen : (if bufsize < strlen value + 1 then bufsize else strlen value + 1) =
      min bufsize (strlen value + 1) := by
    split <;> omega
  obtain ⟨k, hk⟩ : ∃ k, min bufsize (strlen value + 1) = k + 1 :=
    ⟨min bufsize (strlen value + 1) - 1, by omega⟩
  have hkb : k + 1 ≤ bufsize := by omega
  have hks : k ≤ strlen value := by omega
  have hn : (M + (k + 1) - 1) % M = k := by
    have : M + (k + 1) - 1 = k + M := by omega
    rw [this, Nat.add_mod_right, Nat.mod_eq_of_lt (by omega)]
  unfold copy_out_mod
  simp only [hlen, hk, hn, Nat.add_sub_cancel]
  have hcopy : strncpy buf value k = some ((cstr value).take k ++ buf.drop k) := by
    unfold strncpy
    rw [if_pos (by omega), Nat.sub_eq_zero_of_le hks]
    simp
  rw [hcopy]
  simp only
  have htl : ((cstr value).take k).length = k := by
    rw [List.length_take]
    unfold strlen at hks
    omega
  unfold store
  rw [if_pos (by rw [List.length_append, htl, List.length_drop]; omega)]
  rw [List.set_append_right k 0 (by omega), htl, Nat.sub_self,
    List.drop_eq_getElem_cons (by omega : k < buf.length), List.set_cons_zero]

theorem copy_out_eq (buf value : List Nat) (bufsize : Nat)
    (h1 : 1 ≤ bufsize) (h2 : bufsize ≤ buf.length) (h3 : bufsize < SIZE_MOD) :
    copy_out buf value bufsize =
      some ((cstr value).take (min bufsize (strlen value + 1) - 1) ++
        0 :: buf.drop (min bufsize (strlen value + 1))) :=
  copy_out_mod_eq SIZE_MOD buf value bufsize h1 h2 h3

/-! ## Removal from the head -/

theorem q_remove_head_none (m : Mem) (q : queue_t) (a : Addr) (nd : list_ele_t)
    (bytes : List Nat) (bufsize : Nat) (hh : q.head = some a) (hn : m.nodes a = some nd)
    (hs : m.strs nd.value = some bytes) :
    q_remove_head m (some q) none bufsize =
      some (true, ⟨upd m.nodes a none, upd m.strs nd.value none⟩,
        some ⟨nd.next, q.tail, q.size - 1⟩, none) := by
  unfold q_remove_head
  simp only [hh, hn, hs]

theorem q_remove_head_some (m : Mem) (q : queue_t) (a : Addr) (nd : list_ele_t)
    (bytes buf out : List Nat) (bufsize : Nat) (hh : q.head = some a)
    (hn : m.nodes a = some nd) (hs : m.strs nd.value = some bytes)
    (hc : copy_out buf bytes bufsize = some out) :
    q_remove_head m (some q) (some buf) bufsize =
      some (true, ⟨upd m.nodes a none, upd m.strs nd.value none⟩,
        some ⟨nd.next, q.tail, q.size - 1⟩, some out) := by
  unfold q_remove_head
  simp only [hh, hn, hs, hc, Option.map_some']

theorem Holds_after_free (m : Mem) (p : Option Addr) (a : Addr) (as : List Addr)
    (V : List Nat) (L : List (List Nat)) (h : Holds m p (a :: as) (V :: L)) :
    ∃ nd bytes, p = some a ∧ m.nodes a = some nd ∧ m.strs nd.value = some bytes ∧
      cstr bytes = V ∧
      Holds ⟨upd m.nodes a none, upd m.strs nd.value none⟩ nd.next as L := by
  obtain ⟨hc, hv, hd⟩ := h
  have hnm : a ∉ as := isChain_head_not_mem m p a as hc
  obtain ⟨hp, nd, hnd, hc1⟩ := (isChain_cons m p a as).1 hc
  obtain ⟨nd1, bytes, hnd1, hb, hV, hvs⟩ := valuesOf_cons m a as V L hv
  have hnn : nd1 = nd := by
    rw [hnd] at hnd1
    exact (Option.some.inj hnd1).symm
  subst hnn
  rw [strPtrs_cons m a as nd1 hnd, List.nodup_cons] at hd
  have hn : ∀ x ∈ as, (⟨upd m.nodes a none, upd m.strs nd1.value none⟩ : Mem).nodes x =
      m.nodes x := by
    intro x hx
    exact upd_other m.nodes a x none (fun hxa => hnm (hxa ▸ hx))
  have hs : ∀ x ∈ as, ∀ n, m.nodes x = some n →
      (⟨upd m.nodes a none, upd m.strs nd1.value none⟩ : Mem).strs n.value =
        m.strs n.value := by
    intro x hx n hxn
    exact upd_other m.strs nd1.value n.value none
      (fun hv1 => hd.1 (hv1 ▸ mem_strPtrs m as x n hx hxn))
  refine ⟨nd1, bytes, hp, hnd, hb, hV, ?_, ?_, ?_⟩
  · rw [isChain_frame m _ as nd1.next hn]
    exact hc1
  · rw [valuesOf_frame m _ as hn hs]
    exact hvs
  · rw [strPtrs_frame m _ as hn]
    exact hd.2

/-- Removal with valid buffer arguments: on a non-empty queue whose values from
head are `V :: L`, with no buffer or a buffer of at least `bufsize ≥ 1` bytes,
`q_remove_head` returns true, the values from head afterwards are `L` in the
same order (head is the removed node's `next`), and `size` is one less. -/
theorem q_remove_head_pops (m : Mem) (q : queue_t) (sp : Option (List Nat)) (bufsize : Nat)
    (a : Addr) (as : List Addr) (V : List Nat) (L : List (List Nat))
    (hq : Holds m q.head (a :: as) (V :: L)) (hb : bufOk sp bufsize) :
    ∃ m1 q1 sp1, q_remove_head m (some q) sp bufsize = some (true, m1, some q1, sp1) ∧
      Holds m1 q1.head as L ∧
      (∃ nd, m.nodes a = some nd ∧ q1.head = nd.next) ∧
      q1.size = q.size - 1 := by
  obtain ⟨nd, bytes, hp, hnd, hs, _, hH⟩ := Holds_after_free m q.head a as V L hq
  cases sp with
  | none =>
    exact ⟨_, _, none, q_remove_head_none m q a nd bytes bufsize hp hnd hs, hH,
      ⟨nd, hnd, rfl⟩, rfl⟩
  | some buf =>
    obtain ⟨h1, h2, h3⟩ := hb
    exact ⟨_, _, _, q_remove_head_some m q a nd bytes buf _ bufsize hp hnd hs
      (copy_out_eq buf bytes bufsize h1 h2 h3), hH, ⟨nd, hnd, rfl⟩, rfl⟩

/-- An instance of `q_remove_head_pops`: the head of the queue `"a"`, `"b"` is
removed into a buffer of three bytes. -/
theorem q_remove_head_pops_witness :
    ∃ m1 q1 sp1, q_remove_head mem2 (some queue2) (some [7, 7, 7]) 3 =
        some (true, m1, some q1, sp1) ∧
      Holds m1 q1.head [2] [[98]] ∧
      (∃ nd, mem2.nodes 1 = some nd ∧ q1.head = nd.next) ∧
      q1.size = queue2.size - 1 :=
  q_remove_head_pops mem2 queue2 (some [7, 7, 7]) 3 1 [2] [97] [[98]]
    ⟨by decide, by decide, by decide⟩ ⟨by decide, by decide, by decide⟩

/-- C2: the queue `"a"`, `"b"` is non-empty with values `"a" :: ["b"]` from
head, yet `q_remove_head` called with a three-byte buffer and `bufsize = 0`
does not return true: `len - 1` wraps to `SIZE_MOD - 1`, the copy runs past the
buffer and the call has no defined result (the head is not removed and `size`
is not decremented by a returning call). -/
theorem q_remove_head_nonempty_bufsize_zero :
    Holds mem2 queue2.head [1, 2] [[97], [98]] ∧
      copy_out_mod SIZE_MOD [7, 7, 7] [97, 0] 0 = none ∧
      q_remove_head mem2 (some queue2) (some [7, 7, 7]) 0 = none :=
  ⟨⟨by decide, by decide, by decide⟩, rfl, rfl⟩

/-- C1: after `q_new`, `q_insert_head(q, "a")` and `q_remove_head(q, NULL, 0)`
the queue has `head == NULL` and `size == 0`, but `tail` still holds the
address of the removed node, which is no longer allocated. -/
theorem q_remove_head_last_keeps_tail :
    q_new (some 0) = some q0 ∧
      (run drainOps (emptyMem, q0)).map
          (fun st => (st.2.head, st.2.size, st.2.tail, st.1.nodes 1)) =
        some (none, 0, some 1, none) := by
  decide

/-- C3: in the state reached by `q_insert_head(q, "a")` and
`q_remove_head(q, NULL, 0)` the queue is empty; `q_insert_tail(q, "b")` there
returns true with `head` still `NULL` when `malloc` hands out the block of the
removed node again, and has no defined result (a write through the released
`tail`) when `malloc` returns another block. -/
theorem q_insert_tail_after_drain :
    (run drainOps (emptyMem, q0)).map (fun st => (st.2.head, st.2.tail)) =
        some (none, some 1) ∧
      ((run drainOps (emptyMem, q0)).bind
          (fun st => q_insert_tail st.1 (some st.2) [98] (some 1) (some 1))).map
          (fun r => (r.1, r.2.2.map (fun q => (q.head, q.tail, q.size)),
            r.2.1.nodes 1)) =
        some (true, some (none, some 1, 1), some ⟨1, some 1⟩) ∧
      ((run drainOps (emptyMem, q0)).bind
          (fun st => q_insert_tail st.1 (some st.2) [98] (some 2) (some 2))).isNone = true := by
  exact ⟨rfl, rfl, rfl⟩

/-- C4: in the empty queue reached by `q_insert_head(q, "a")` and
`q_remove_head(q, NULL, 0)`, `q_insert_head(q, "b")` with a new block at
address 2 returns true with `head` the new node, while `tail` keeps the address
of the node released before, which is not allocated. -/
theorem q_insert_head_after_drain :
    ((run drainOps (emptyMem, q0)).bind
        (fun st => q_insert_head st.1 (some st.2) [98] (some 2) (some 2))).map
        (fun r => (r.1, r.2.2.map (fun q => (q.head, q.tail, q.size)),
          r.2.1.nodes 2, r.2.1.nodes 1)) =
      some (true, some (some 2, some 1, 1), some ⟨2, none⟩, none) := by
  rfl

theorem q_insert_head_ok (m : Mem) (q : queue_t) (s : List Nat) (h p : Addr) :
    q_insert_head m (some q) s (some h) (some p) =
      some (true,
        ⟨upd (upd m.nodes h (some ⟨0, none⟩)) h (some ⟨p, q.head⟩),
          upd m.strs p (some (cstr s ++ [0]))⟩,
        some ⟨some h, if q.tail = none then some h else q.tail, q.size + 1⟩) := by
  unfold q_insert_head
  simp only [strncpy_block]
  by_cases ht : q.tail = none
  · simp only [ht, if_true]
  · simp only [ht, if_false]

/-- C5: after a successful `q_insert_head` of the string at `s`, an immediate
`q_remove_head` into a buffer of capacity `bufsize ≥ strlen s + 1` returns true
and the buffer starts with the bytes of the string followed by a terminator. -/
theorem insert_head_remove_head_roundtrip (m : Mem) (q : queue_t) (s : List Nat)
    (newh new_s : Option Addr) (m1 : Mem) (q1 : Option queue_t)
    (buf : List Nat) (bufsize : Nat)
    (hins : q_insert_head m (some q) s newh new_s = some (true, m1, q1))
    (hcap : strlen s + 1 ≤ bufsize) (hlen : bufsize ≤ buf.length)
    (hsz : bufsize < SIZE_MOD) :
    ∃ m2 q2, q_remove_head m1 q1 (some buf) bufsize =
      some (true, m2, q2, some (cstr s ++ 0 :: buf.drop (strlen s + 1))) := by
  cases newh with
  | none => simp [q_insert_head] at hins
  | some h =>
    cases new_s with
    | none => simp [q_insert_head] at hins
    | some p =>
      rw [q_insert_head_ok] at hins
      simp only [Option.some.injEq, Prod.mk.injEq, true_and] at hins
      obtain ⟨hm, hq1⟩ := hins
      subst hm
      subst hq1
      have hc := copy_out_eq buf (cstr s ++ [0]) bufsize (by omega) hlen hsz
      have hsl : strlen (cstr s ++ [0]) = strlen s := by
        unfold strlen
        rw [cstr_append_zero]
      rw [cstr_append_zero, hsl, Nat.min_eq_right hcap, Nat.add_sub_cancel] at hc
      have ht : (cstr s).take (strlen s) = cstr s := by
        unfold strlen
        exact List.take_length (cstr s)
      rw [ht] at hc
      exact ⟨_, _, q_remove_head_some _ _ h ⟨p, q.head⟩ (cstr s ++ [0]) buf _ bufsize rfl
        (upd_same _ h _) (upd_same _ p _) hc⟩

/-- Witness of C5: the string `"ab"` is inserted into the queue `"a"`, `"b"`
and removed into a buffer of four bytes. -/
theorem insert_head_remove_head_roundtrip_witness :
    ∃ m2 q2, q_remove_head
        ⟨upd (upd mem2.nodes 3 (some ⟨0, none⟩)) 3 (some ⟨3, some 1⟩),
          upd mem2.strs 3 (some [97, 98, 0])⟩
        (some ⟨some 3, some 2, 3⟩) (some [7, 7, 7, 7]) 3 =
      some (true, m2, q2, some (cstr [97, 98] ++ 0 :: [7, 7, 7, 7].drop (strlen [97, 98] + 1))) :=
  insert_head_remove_head_roundtrip mem2 queue2 [97, 98] (some 3) (some 3) _ _ [7, 7, 7, 7] 3
    rfl (by decide) (by decide) (by decide)

/-- C6, as stated, at capacity 0: the head value `"ab"` has `0 < len + 1`, yet
`q_remove_head` with a two-byte buffer and `bufsize = 0` does not return true
(the call has no defined result). -/
theorem q_remove_head_capacity_zero_undefined :
    headValue mem1 queue1 = some [97, 98] ∧ 0 < [97, 98].length + 1 ∧
      q_remove_head mem1 (some queue1) (some [7, 7]) 0 = none :=
  ⟨rfl, by decide, rfl⟩

/-- C6, amended: on a non-empty queue whose head value is `V`, with a supplied
buffer of capacity `k` where `1 ≤ k < len V + 1`, `q_remove_head` returns true
and the buffer holds the first `k - 1` bytes of `V` followed by a terminator
(the bytes from index `k` on are those of the buffer before the call). -/
theorem q_remove_head_truncates (m : Mem) (q : queue_t) (V buf : List Nat) (k : Nat)
    (hv : headValue m q = some V) (h1 : 1 ≤ k) (hk : k < V.length + 1)
    (hlen : k ≤ buf.length) (hsz : k < SIZE_MOD) :
    ∃ m1 q1, q_remove_head m (some q) (some buf) k =
      some (true, m1, some q1, some (V.take (k - 1) ++ 0 :: buf.drop k)) := by
  unfold headValue at hv
  cases hh : q.head with
  | none => simp [hh] at hv
  | some a =>
    cases hn : m.nodes a with
    | none => simp [hh, hn] at hv
    | some nd =>
      cases hs : m.strs nd.value with
      | none => simp [hh, hn, hs] at hv
      | some bytes =>
        simp [hh, hn, hs] at hv
        subst hv
        have hc := copy_out_eq buf bytes k h1 hlen hsz
        have hmin : min k (strlen bytes + 1) = k := by
          unfold strlen
          omega
        rw [hmin] at hc
        exact ⟨_, _, q_remove_head_some m q a nd bytes buf _ k hh hn hs hc⟩

/-- Witness of C6: the value `"ab"` is removed into a buffer of capacity 2. -/
theorem q_remove_head_truncates_witness :
    ∃ m1 q1, q_remove_head mem1 (some queue1) (some [7, 7, 7]) 2 =
      some (true, m1, some q1, some ([97, 98].take (2 - 1) ++ 0 :: [7, 7, 7].drop 2)) :=
  q_remove_head_truncates mem1 queue1 [97, 98] [7, 7, 7] 2
    (by decide) (by decide) (by decide) (by decide) (by decide)

/-- C7: on the queue `"a"`, `"b"` with a three-byte buffer supplied and
`bufsize = 0`, the length passed to `strncpy` is `len - 1 = SIZE_MOD - 1`, the
copy runs past the end of the buffer and `q_remove_head` has no defined
result; with an absent buffer the same call returns true. -/
theorem q_remove_head_bufsize_zero :
    (SIZE_MOD + 0 - 1) % SIZE_MOD = 18446744073709551615 ∧
      copy_out [7, 7, 7] [97, 0] 0 = none ∧
      q_remove_head mem2 (some queue2) (some [7, 7, 7]) 0 = none ∧
      (q_remove_head mem2 (some queue2) none 0).map
          (fun r => (r.1, r.2.2.1, r.2.2.2)) =
        some (true, some ⟨some 2, some 2, 1⟩, none) :=
  ⟨by decide, rfl, rfl, rfl⟩

/-- C8: `q_remove_head` on an absent queue or on a queue whose head is `NULL`
returns false and leaves the heap, the queue and the buffer as they were. -/
theorem q_remove_head_empty (m : Mem) (q : Option queue_t) (sp : Option (List Nat))
    (bufsize : Nat) (h : q = none ∨ ∃ qq, q = some qq ∧ qq.head = none) :
    q_remove_head m q sp bufsize = some (false, m, q, sp) := by
  rcases h with h | ⟨qq, hq, hh⟩
  · subst h
    rfl
  · subst hq
    simp [q_remove_head, hh]

/-- Witness of C8: removal from the queue made by `q_new`. -/
theorem q_remove_head_empty_witness :
    q_remove_head mem2 (some q0) (some [7, 7]) 2 = some (false, mem2, some q0, some [7, 7]) :=
  q_remove_head_empty mem2 (some q0) (some [7, 7]) 2 (Or.inr ⟨q0, rfl, rfl⟩)

theorem malloc_free_node (m : Mem) (a : Addr) (nd : list_ele_t) (h : m.nodes a = none) :
    (⟨upd (upd m.nodes a (some nd)) a none, m.strs⟩ : Mem) = m := by
  cases m with
  | mk nodes strs =>
    simp only [Mem.mk.injEq, and_true]
    funext x
    unfold upd
    by_cases hx : x = a
    · simp only [hx, if_true]
      exact h.symm
    · simp only [hx, if_false]

/-- C9: `q_insert_head` and `q_insert_tail` return false when the queue is
absent, when the node allocation fails, and when the string allocation fails
(the node block `a` handed out by `malloc` is then released again); in each
case the heap and the queue are exactly as before the call. -/
theorem q_insert_failure_unchanged (m : Mem) (q : queue_t) (s : List Nat) (a : Addr)
    (r1 r2 : Option Addr) (hfresh : m.nodes a = none) :
    q_insert_head m none s r1 r2 = some (false, m, none) ∧
      q_insert_head m (some q) s none r2 = some (false, m, some q) ∧
      q_insert_head m (some q) s (some a) none = some (false, m, some q) ∧
      q_insert_tail m none s r1 r2 = some (false, m, none) ∧
      q_insert_tail m (some q) s none r2 = some (false, m, some q) ∧
      q_insert_tail m (some q) s (some a) none = some (false, m, some q) := by
  refine ⟨rfl, rfl, ?_, rfl, rfl, ?_⟩
  · simp only [q_insert_head, malloc_free_node m a _ hfresh]
  · simp only [q_insert_tail, malloc_free_node m a _ hfresh]

/-- Witness of C9: failing insertions into the queue `"a"`, `"b"`, the node
block being the unallocated address 3. -/
theorem q_insert_failure_unchanged_witness :
    q_insert_head mem2 none [99] (some 3) (some 3) = some (false, mem2, none) ∧
      q_insert_head mem2 (some queue2) [99] none (some 3) = some (false, mem2, some queue2) ∧
      q_insert_head mem2 (some queue2) [99] (some 3) none = some (false, mem2, some queue2) ∧
      q_insert_tail mem2 none [99] (some 3) (some 3) = some (false, mem2, none) ∧
      q_insert_tail mem2 (some queue2) [99] none (some 3) = some (false, mem2, some queue2) ∧
      q_insert_tail mem2 (some queue2) [99] (some 3) none = some (false, mem2, some queue2) :=
  q_insert_failure_unchanged mem2 queue2 [99] 3 (some 3) (some 3) (by decide)

/-- C10: after `q_new`, `q_insert_tail(q, "a")`, `q_remove_head(q, NULL, 0)` and
`q_insert_tail(q, "b")`, where `malloc` hands out the released blocks again,
`size` is 1 while no node is reachable from `head`, which is `NULL`. -/
theorem size_differs_from_chain_length :
    (run [.insert_tail [97] (some 1) (some 1), .remove_head none 0,
          .insert_tail [98] (some 1) (some 1)] (emptyMem, q0)).map
        (fun st => (st.2.size, st.2.head, chainLength 8 st.1 st.2.head)) =
      some (1, none, some 0) := by
  decide

/-! ## The cached size -/

theorem q_insert_head_size (m : Mem) (q : queue_t) (s : List Nat) (newh new_s : Option Addr)
    (r : Bool) (m1 : Mem) (q1 : queue_t)
    (h : q_insert_head m (some q) s newh new_s = some (r, m1, some q1)) :
    q1.size = q.size + (if r then 1 else 0) := by
  cases newh with
  | none =>
    simp only [q_insert_head, Option.some.injEq, Prod.mk.injEq] at h
    obtain ⟨hr, _, hq⟩ := h
    subst hr
    subst hq
    simp
  | some a =>
    cases new_s with
    | none =>
      simp only [q_insert_head, Option.some.injEq, Prod.mk.injEq] at h
      obtain ⟨hr, _, hq⟩ := h
      subst hr
      subst hq
      simp
    | some p =>
      rw [q_insert_head_ok] at h
      simp only [Option.some.injEq, Prod.mk.injEq] at h
      obtain ⟨hr, _, hq⟩ := h
      subst hr
      subst hq
      simp

theorem q_insert_tail_size (m : Mem) (q : queue_t) (s : List Nat) (newt new_s : Option Addr)
    (r : Bool) (m1 : Mem) (q1 : queue_t)
    (h : q_insert_tail m (some q) s newt new_s = some (r, m1, some q1)) :
    q1.size = q.size + (if r then 1 else 0) := by
  cases newt with
  | none =>
    simp only [q_insert_tail, Option.some.injEq, Prod.mk.injEq] at h
    obtain ⟨hr, _, hq⟩ := h
    subst hr
    subst hq
    simp
  | some a =>
    cases new_s with
    | none =>
      simp only [q_insert_tail, Option.some.injEq, Prod.mk.injEq] at h
      obtain ⟨hr, _, hq⟩ := h
      subst hr
      subst hq
      simp
    | some p =>
      unfold q_insert_tail at h
      simp only [strncpy_block] at h
      cases ht : q.tail with
      | none =>
        simp only [ht, Option.some.injEq, Prod.mk.injEq] at h
        obtain ⟨hr, _, hq⟩ := h
        subst hr
        subst hq
        simp
      | some old =>
        simp only [ht] at h
        split at h
        · exact absurd h (by simp)
        · simp only [Option.some.injEq, Prod.mk.injEq] at h
          obtain ⟨hr, _, hq⟩ := h
          subst hr
          subst hq
          simp

theorem q_remove_head_size (m : Mem) (q : queue_t) (sp : Option (List Nat)) (bufsize : Nat)
    (r : Bool) (m1 : Mem) (q1 : queue_t) (sp1 : Option (List Nat))
    (h : q_remove_head m (some q) sp bufsize = some (r, m1, some q1, sp1)) :
    q1.size = q.size + (if r then -1 else 0) := by
  unfold q_remove_head at h
  cases hh : q.head with
  | none =>
    simp only [hh, Option.some.injEq, Prod.mk.injEq] at h
    obtain ⟨hr, _, hq, _⟩ := h
    subst hr
    subst hq
    simp
  | some a =>
    simp only [hh] at h
    cases hn : m.nodes a with
    | none => simp only [hn] at h; exact absurd h (by simp)
    | some nd =>
      simp only [hn] at h
      cases hs : m.strs nd.value with
      | none => simp only [hs] at h; exact absurd h (by simp)
      | some bytes =>
        simp only [hs] at h
        split at h
        · exact absurd h (by simp)
        · simp only [Option.some.injEq, Prod.mk.injEq] at h
          obtain ⟨hr, _, hq, _⟩ := h
          subst hr
          subst hq
          simp
          omega

theorem q_reverse_size (fuel : Nat) (m : Mem) (q : queue_t) (m1 : Mem) (q1 : queue_t)
    (h : q_reverse fuel m (some q) = some (m1, some q1)) : q1.size = q.size := by
  unfold q_reverse at h
  cases hh : q.head with
  | none =>
    simp only [hh, Option.some.injEq, Prod.mk.injEq] at h
    rw [← h.2]
  | some a =>
    simp only [hh] at h
    split at h
    · exact absurd h (by simp)
    · simp only [Option.some.injEq, Prod.mk.injEq] at h
      rw [← h.2]

theorem step_size (m : Mem) (q : queue_t) (op : Op) (r : Bool) (m1 : Mem) (q1 : queue_t)
    (h : step (m, q) op = some (r, m1, q1)) : q1.size = q.size + netEffect op r := by
  unfold step at h
  split at h
  · cases op with
    | insert_head s newh new_s =>
      simp only at h
      split at h
      · rename_i r2 m2 q2 heq
        simp only [Option.some.injEq, Prod.mk.injEq] at h
        obtain ⟨hr, _, hq⟩ := h
        subst hr
        subst hq
        exact q_insert_head_size m q s newh new_s _ _ _ heq
      · exact absurd h (by simp)
    | insert_tail s newt new_s =>
      simp only at h
      split at h
      · rename_i r2 m2 q2 heq
        simp only [Option.some.injEq, Prod.mk.injEq] at h
        obtain ⟨hr, _, hq⟩ := h
        subst hr
        subst hq
        exact q_insert_tail_size m q s newt new_s _ _ _ heq
      · exact absurd h (by simp)
    | remove_head sp bufsize =>
      simp only at h
      split at h
      · rename_i r2 m2 q2 sp2 heq
        simp only [Option.some.injEq, Prod.mk.injEq] at h
        obtain ⟨hr, _, hq⟩ := h
        subst hr
        subst hq
        exact q_remove_head_size m q sp bufsize _ _ _ _ heq
      · exact absurd h (by simp)
    | reverse fuel =>
      simp only at h
      split at h
      · rename_i m2 q2 heq
        simp only [Option.some.injEq, Prod.mk.injEq] at h
        obtain ⟨_, _, hq⟩ := h
        subst hq
        rw [q_reverse_size fuel m q _ _ heq]
        simp [netEffect]
      · exact absurd h (by simp)
    | sort =>
      simp only [q_sort, Option.some.injEq, Prod.mk.injEq] at h
      obtain ⟨_, _, hq⟩ := h
      subst hq
      simp [netEffect]
  · exact absurd h (by simp)

theorem runNet_size (ops : List Op) :
    ∀ (m : Mem) (q : queue_t) (n : Int) (m1 : Mem) (q1 : queue_t),
      runNet ops (m, q) = some (n, m1, q1) → q1.size = q.size + n := by
  induction ops with
  | nil =>
    intro m q n m1 q1 h
    simp only [runNet, Option.some.injEq, Prod.mk.injEq] at h
    obtain ⟨hn, _, hq⟩ := h
    subst hn
    subst hq
    simp
  | cons op ops ih =>
    intro m q n m1 q1 h
    unfold runNet at h
    cases hs : step (m, q) op with
    | none => simp only [hs] at h; exact absurd h (by simp)
    | some res =>
      obtain ⟨r, m2, q2⟩ := res
      simp only [hs] at h
      cases hr : runNet ops (m2, q2) with
      | none => simp only [hr] at h; exact absurd h (by simp)
      | some res2 =>
        obtain ⟨n2, m3, q3⟩ := res2
        simp only [hr, Option.some.injEq, Prod.mk.injEq] at h
        obtain ⟨hn, hm, hq⟩ := h
        subst hn
        subst hq
        rw [ih m2 q2 n2 m3 q3 hr, step_size m q op r m2 q2 hs]
        omega

theorem run_of_runNet (ops : List Op) :
    ∀ (st : Mem × queue_t) (n : Int) (st1 : Mem × queue_t),
      runNet ops st = some (n, st1) → run ops st = some st1 := by
  induction ops with
  | nil =>
    intro st n st1 h
    simp only [runNet, Option.some.injEq, Prod.mk.injEq] at h
    rw [run, h.2]
  | cons op ops ih =>
    intro st n st1 h
    unfold runNet at h
    unfold run
    cases hs : step st op with
    | none => simp only [hs] at h; exact absurd h (by simp)
    | some res =>
      obtain ⟨r, st2⟩ := res
      simp only [hs] at h ⊢
      cases hr : runNet ops st2 with
      | none => simp only [hr] at h; exact absurd h (by simp)
      | some res2 =>
        obtain ⟨n2, st3⟩ := res2
        simp only [hr, Option.some.injEq, Prod.mk.injEq] at h
        rw [ih st2 n2 st3 hr, h.2]

/-- C11: after any finite sequence of `q_insert_head`, `q_insert_tail`,
`q_remove_head`, `q_reverse` and `q_sort` calls on a queue made by `q_new`,
`q_size` is the number of insertions that returned true minus the number of
removals that returned true; `q_size` of an absent queue is 0 (`q_size` only
reads the queue). -/
theorem q_size_counts (ops : List Op) (p : Option Addr) (q : queue_t) (m0 : Mem)
    (n : Int) (m1 : Mem) (q1 : queue_t)
    (hnew : q_new p = some q) (hrun : runNet ops (m0, q) = some (n, m1, q1)) :
    q_size (some q1) = n ∧ run ops (m0, q) = some (m1, q1) ∧ q_size none = 0 := by
  have hq : q = ⟨none, none, 0⟩ := by
    cases p with
    | none => simp [q_new] at hnew
    | some a =>
      simp only [q_new, Option.some.injEq] at hnew
      exact hnew.symm
  have hs := runNet_size ops m0 q n m1 q1 hrun
  refine ⟨?_, run_of_runNet ops (m0, q) n (m1, q1) hrun, rfl⟩
  rw [hq] at hs
  simp only [q_size, hs]
  omega

/-- Witness of C11: two successful insertions, a successful removal and a
failed insertion leave `q_size` at 1. -/
theorem q_size_counts_witness :
    ∃ m1 q1,
      runNet [.insert_head [97] (some 1) (some 1), .insert_tail [98] (some 2) (some 2),
          .remove_head none 0, .insert_head [99] none none] (emptyMem, q0) =
        some (1, m1, q1) ∧ q_size (some q1) = 1 :=
  ⟨_, _, rfl,
    (q_size_counts [.insert_head [97] (some 1) (some 1), .insert_tail [98] (some 2) (some 2),
      .remove_head none 0, .insert_head [99] none none] (some 0) q0 emptyMem 1 _ _ rfl rfl).1⟩

/-! ## Reversal -/

theorem isChain_head (m : Mem) (p : Option Addr) (l : List Addr)
    (h : isChain m p l = true) : p = l.head? := by
  cases l with
  | nil => exact (isChain_nil m p).1 h
  | cons a as => exact ((isChain_cons m p a as).1 h).1

theorem isChain_next (m : Mem) (l1 : List Addr) (x y : Addr) (l2 : List Addr) :
    ∀ p, isChain m p (l1 ++ x :: y :: l2) = true →
      ∃ nd, m.nodes x = some nd ∧ nd.next = some y := by
  intro p h
  have h1 := isChain_suffix m l1 x (y :: l2) p h
  obtain ⟨_, nd, hnd, hc⟩ := (isChain_cons m (some x) x (y :: l2)).1 h1
  exact ⟨nd, hnd, ((isChain_cons m nd.next y l2).1 hc).1⟩

theorem isChain_last (m : Mem) (l1 : List Addr) (x : Addr) :
    ∀ p, isChain m p (l1 ++ [x]) = true → ∃ nd, m.nodes x = some nd ∧ nd.next = none := by
  intro p h
  have h1 := isChain_suffix m l1 x [] p h
  obtain ⟨_, nd, hnd, hc⟩ := (isChain_cons m (some x) x []).1 h1
  exact ⟨nd, hnd, (isChain_nil m nd.next).1 hc⟩

theorem valuesOf_congr (m m1 : Mem) (as : List Addr)
    (hn : ∀ x, (m1.nodes x).map (fun nd => nd.value) = (m.nodes x).map (fun nd => nd.value))
    (hs : m1.strs = m.strs) : valuesOf m1 as = valuesOf m as := by
  induction as with
  | nil => rfl
  | cons a as ih =>
    have ha := hn a
    unfold valuesOf
    rw [ih, hs]
    cases h1 : m1.nodes a with
    | none =>
      cases h2 : m.nodes a with
      | none => rfl
      | some nd => simp [h1, h2] at ha
    | some nd1 =>
      cases h2 : m.nodes a with
      | none => simp [h1, h2] at ha
      | some nd =>
        simp only [h1, h2, Option.map_some', Option.some.injEq] at ha
        simp only [ha]

theorem valuesOf_snoc (m : Mem) (a : Addr) (nd : list_ele_t) (bytes : List Nat)
    (hn : m.nodes a = some nd) (hb : m.strs nd.value = some bytes) (as : List Addr) :
    ∀ vs, valuesOf m as = some vs → valuesOf m (as ++ [a]) = some (vs ++ [cstr bytes]) := by
  induction as with
  | nil =>
    intro vs h
    simp only [valuesOf, Option.some.injEq] at h
    subst h
    simp [valuesOf, hn, hb]
  | cons b bs ih =>
    intro vs h
    cases vs with
    | nil =>
      unfold valuesOf at h
      cases h1 : m.nodes b with
      | none => simp [h1] at h
      | some ndb =>
        cases h2 : m.strs ndb.value with
        | none => simp [h1, h2] at h
        | some bb =>
          cases h3 : valuesOf m bs with
          | none => simp [h1, h2, h3] at h
          | some ws => simp [h1, h2, h3] at h
    | cons v ws =>
      obtain ⟨ndb, bb, h1, h2, h3, h4⟩ := valuesOf_cons m b bs v ws h
      have := ih ws h4
      simp only [List.cons_append]
      unfold valuesOf
      simp only [h1, h2, this, Option.map_some', h3]

theorem valuesOf_reverse (m : Mem) (as : List Addr) :
    ∀ vs, valuesOf m as = some vs → valuesOf m as.reverse = some vs.reverse := by
  induction as with
  | nil =>
    intro vs h
    simp only [valuesOf, Option.some.injEq] at h
    subst h
    rfl
  | cons a as ih =>
    intro vs h
    cases vs with
    | nil =>
      unfold valuesOf at h
      cases h1 : m.nodes a with
      | none => simp [h1] at h
      | some nd =>
        cases h2 : m.strs nd.value with
        | none => simp [h1, h2] at h
        | some bb =>
          cases h3 : valuesOf m as with
          | none => simp [h1, h2, h3] at h
          | some ws => simp [h1, h2, h3] at h
    | cons v ws =>
      obtain ⟨nd, bb, h1, h2, h3, h4⟩ := valuesOf_cons m a as v ws h
      rw [List.reverse_cons, List.reverse_cons, ← h3]
      exact valuesOf_snoc m a nd bb h1 h2 as.reverse ws.reverse (ih ws h4)

theorem q_reverse_loop_spec (cs : List Addr) :
    ∀ (fuel : Nat) (m : Mem) (head curr : Option Addr) (ps : List Addr),
      isChain m curr cs = true → isChain m head ps = true → (∀ x ∈ cs, x ∉ ps) →
      cs.length ≤ fuel →
      ∃ m1 h1, q_reverse_loop fuel m head curr = some (m1, h1) ∧
        isChain m1 h1 (cs.reverse ++ ps) = true ∧ m1.strs = m.strs ∧
        (∀ x, (m1.nodes x).map (fun nd => nd.value) =
          (m.nodes x).map (fun nd => nd.value)) ∧
        (∀ x, x ∉ cs → m1.nodes x = m.nodes x) := by
  induction cs with
  | nil =>
    intro fuel m head curr ps hc hp _ _
    have hcn : curr = none := (isChain_nil m curr).1 hc
    subst hcn
    refine ⟨m, head, ?_, ?_, rfl, fun _ => rfl, fun _ _ => rfl⟩
    · cases fuel <;> rfl
    · simpa using hp
  | cons c cs ih =>
    intro fuel m head curr ps hc hp hdis hfuel
    have hnm : c ∉ cs := isChain_head_not_mem m curr c cs hc
    obtain ⟨hcurr, nd, hnd, hrest⟩ := (isChain_cons m curr c cs).1 hc
    subst hcurr
    have hcps : c ∉ ps := hdis c (List.mem_cons_self c cs)
    cases fuel with
    | zero => simp at hfuel
    | succ f =>
      have hf : cs.length ≤ f := by
        simp only [List.length_cons] at hfuel
        omega
      have hrest1 : isChain ⟨upd m.nodes c (some ⟨nd.value, head⟩), m.strs⟩ nd.next cs = true := by
        rw [isChain_frame m _ cs nd.next
          (fun x hx => upd_other m.nodes c x _ (fun hxc => hnm (hxc ▸ hx)))]
        exact hrest
      have hps1 : isChain ⟨upd m.nodes c (some ⟨nd.value, head⟩), m.strs⟩ (some c) (c :: ps) =
          true := by
        rw [isChain_cons]
        refine ⟨rfl, ⟨nd.value, head⟩, upd_same m.nodes c _, ?_⟩
        rw [isChain_frame m _ ps head
          (fun x hx => upd_other m.nodes c x _ (fun hxc => hcps (hxc ▸ hx)))]
        exact hp
      have hdis1 : ∀ x ∈ cs, x ∉ c :: ps := by
        intro x hx hmem
        rcases List.mem_cons.1 hmem with hxc | hxp
        · exact hnm (hxc ▸ hx)
        · exact hdis x (List.mem_cons_of_mem c hx) hxp
      obtain ⟨m1, h1, hrun, hch, hstr, hval, hfr⟩ :=
        ih f _ (some c) nd.next (c :: ps) hrest1 hps1 hdis1 hf
      refine ⟨m1, h1, ?_, ?_, hstr, ?_, ?_⟩
      · rw [q_reverse_loop]
        simp only [hnd]
        exact hrun
      · rw [List.reverse_cons, List.append_assoc]
        exact hch
      · intro x
        rw [hval x]
        by_cases hxc : x = c
        · subst hxc
          simp only [upd_same, hnd, Option.map_some']
        · simp only [upd_other m.nodes c x _ hxc]
      · intro x hx
        have hxc : x ≠ c := fun h => hx (h ▸ List.mem_cons_self c cs)
        have hxcs : x ∉ cs := fun h => hx (List.mem_cons_of_mem c h)
        rw [hfr x hxcs]
        exact upd_other m.nodes c x _ hxc

theorem q_reverse_spec (fuel : Nat) (m : Mem) (q : queue_t) (a : Addr) (as : List Addr)
    (hc : isChain m q.head (a :: as) = true) (hfuel : as.length + 1 ≤ fuel) :
    ∃ m1, q_reverse fuel m (some q) =
        some (m1, some ⟨(a :: as).getLast?, some a, q.size⟩) ∧
      isChain m1 (a :: as).getLast? (a :: as).reverse = true ∧ m1.strs = m.strs ∧
      (∀ x, (m1.nodes x).map (fun nd => nd.value) =
        (m.nodes x).map (fun nd => nd.value)) ∧
      (∀ x, x ∉ a :: as → m1.nodes x = m.nodes x) := by
  have hh : q.head = some a := ((isChain_cons m q.head a as).1 hc).1
  have hc1 : isChain m (some a) (a :: as) = true := by rw [← hh]; exact hc
  obtain ⟨m1, h1, hrun, hch, hstr, hval, hfr⟩ :=
    q_reverse_loop_spec (a :: as) fuel m none (some a) [] hc1 rfl
      (fun _ _ => List.not_mem_nil _) (by simpa using hfuel)
  rw [List.append_nil] at hch
  have hh1 : h1 = (a :: as).getLast? := by
    rw [isChain_head m1 h1 _ hch, List.head?_reverse]
  subst hh1
  refine ⟨m1, ?_, hch, hstr, hval, hfr⟩
  unfold q_reverse
  simp only [hh, hrun]

/-- C12: on a non-empty well-formed queue with chain `a :: as` and values `L`,
`q_reverse` (with fuel for every node) returns a queue whose chain from head is
the reversed chain with values `L.reverse`, whose head is the prior tail and
whose tail is the prior head; the new tail's `next` is `NULL` and the `next` of
every other node is its former predecessor. -/
theorem q_reverse_reverses (fuel : Nat) (m : Mem) (q : queue_t) (a : Addr) (as : List Addr)
    (L : List (List Nat)) (hwf : WellFormed m q (a :: as))
    (hv : valuesOf m (a :: as) = some L) (hfuel : as.length + 1 ≤ fuel) :
    ∃ m1 q1, q_reverse fuel m (some q) = some (m1, some q1) ∧
      isChain m1 q1.head (a :: as).reverse = true ∧
      valuesOf m1 (a :: as).reverse = some L.reverse ∧
      q1.head = q.tail ∧ q1.tail = q.head ∧
      (∃ nd, m1.nodes a = some nd ∧ nd.next = none) ∧
      (∀ l1 x y l2, a :: as = l1 ++ x :: y :: l2 →
        ∃ nd, m1.nodes y = some nd ∧ nd.next = some x) := by
  obtain ⟨hc, ht, _⟩ := hwf
  obtain ⟨m1, hrun, hch, hstr, hval, _⟩ := q_reverse_spec fuel m q a as hc hfuel
  have hh : q.head = some a := ((isChain_cons m q.head a as).1 hc).1
  refine ⟨m1, _, hrun, hch, ?_, ht.symm, hh.symm, ?_, ?_⟩
  · rw [valuesOf_congr m m1 _ hval hstr]
    exact valuesOf_reverse m (a :: as) L hv
  · have hch1 := hch
    rw [List.reverse_cons] at hch1
    exact isChain_last m1 as.reverse a _ hch1
  · intro l1 x y l2 hsplit
    have hch1 := hch
    rw [hsplit] at hch1
    have hrev : (l1 ++ x :: y :: l2).reverse = l2.reverse ++ y :: x :: l1.reverse := by
      simp
    rw [hrev] at hch1
    exact isChain_next m1 l2.reverse y x l1.reverse _ hch1

/-- Witness of C12: the queue `"a"`, `"b"` is reversed. -/
theorem q_reverse_reverses_witness :
    ∃ m1 q1, q_reverse 2 mem2 (some queue2) = some (m1, some q1) ∧
      isChain m1 q1.head [1, 2].reverse = true ∧
      valuesOf m1 [1, 2].reverse = some [[97], [98]].reverse ∧
      q1.head = queue2.tail ∧ q1.tail = queue2.head ∧
      (∃ nd, m1.nodes 1 = some nd ∧ nd.next = none) ∧
      (∀ l1 x y l2, [1, 2] = l1 ++ x :: y :: l2 →
        ∃ nd, m1.nodes y = some nd ∧ nd.next = some x) :=
  q_reverse_reverses 2 mem2 queue2 1 [2] [[97], [98]] ⟨by decide, by decide, by decide⟩
    (by decide) (by decide)

/-- C17: `q_reverse` on a queue whose chain is `as` (with fuel for every node)
returns with `size` unchanged, the chain being the same nodes in reverse
order, no string block changed, and every node allocated as before with the
same `value` (only `next` fields, `head` and `tail` are rewired); on an absent
queue and on a queue with `head == NULL` it changes nothing. -/
theorem q_reverse_frame (fuel : Nat) (m : Mem) (q : queue_t) (as : List Addr)
    (hc : isChain m q.head as = true) (hfuel : as.length ≤ fuel) :
    (∃ m1 q1, q_reverse fuel m (some q) = some (m1, some q1) ∧ q1.size = q.size ∧
        isChain m1 q1.head as.reverse = true ∧ as.reverse.Perm as ∧
        m1.strs = m.strs ∧
        (∀ x, (m1.nodes x).map (fun nd => nd.value) =
          (m.nodes x).map (fun nd => nd.value)) ∧
        (∀ x, x ∉ as → m1.nodes x = m.nodes x)) ∧
      q_reverse fuel m none = some (m, none) ∧
      (q.head = none → q_reverse fuel m (some q) = some (m, some q)) := by
  refine ⟨?_, rfl, ?_⟩
  · cases as with
    | nil =>
      have hh : q.head = none := (isChain_nil m q.head).1 hc
      refine ⟨m, q, ?_, rfl, ?_, List.Perm.refl _, rfl, fun _ => rfl, fun _ _ => rfl⟩
      · unfold q_reverse
        simp only [hh]
      · simpa using hc
    | cons a as =>
      obtain ⟨m1, hrun, hch, hstr, hval, hfr⟩ :=
        q_reverse_spec fuel m q a as hc (by simpa using hfuel)
      exact ⟨m1, _, hrun, rfl, hch, List.reverse_perm _, hstr, hval, hfr⟩
  · intro hh
    unfold q_reverse
    simp only [hh]

/-- Witness of C17: the queue `"a"`, `"b"` is reversed. -/
theorem q_reverse_frame_witness :
    (∃ m1 q1, q_reverse 2 mem2 (some queue2) = some (m1, some q1) ∧ q1.size = queue2.size ∧
        isChain m1 q1.head [1, 2].reverse = true ∧ [1, 2].reverse.Perm [1, 2] ∧
        m1.strs = mem2.strs ∧
        (∀ x, (m1.nodes x).map (fun nd => nd.value) =
          (mem2.nodes x).map (fun nd => nd.value)) ∧
        (∀ x, x ∉ [1, 2] → m1.nodes x = mem2.nodes x)) ∧
      q_reverse 2 mem2 none = some (mem2, none) ∧
      (queue2.head = none → q_reverse 2 mem2 (some queue2) = some (mem2, some queue2)) :=
  q_reverse_frame 2 mem2 queue2 [1, 2] (by decide) (by decide)

theorem q_reverse_twice (fuel : Nat) (m : Mem) (q : queue_t) (a : Addr) (as : List Addr)
    (L : List (List Nat)) (hwf : WellFormed m q (a :: as))
    (hv : valuesOf m (a :: as) = some L) (hfuel : as.length + 1 ≤ fuel) :
    ∃ m1 q1 m2 q2, q_reverse fuel m (some q) = some (m1, some q1) ∧
      q_reverse fuel m1 (some q1) = some (m2, some q2) ∧
      q2.head = q.head ∧ q2.tail = q.tail ∧ q2.size = q.size ∧
      isChain m2 q2.head (a :: as) = true ∧ valuesOf m2 (a :: as) = some L := by
  obtain ⟨hc, ht, _⟩ := hwf
  have hh : q.head = some a := ((isChain_cons m q.head a as).1 hc).1
  obtain ⟨m1, hrun1, hch1, hstr1, hval1, _⟩ := q_reverse_spec fuel m q a as hc hfuel
  cases hrev : (a :: as).reverse with
  | nil => simp at hrev
  | cons b bs =>
    have hlen : bs.length + 1 ≤ fuel := by
      have := congrArg List.length hrev
      simp only [List.length_reverse, List.length_cons] at this
      omega
    have hch1b : isChain m1 (⟨(a :: as).getLast?, some a, q.size⟩ : queue_t).head (b :: bs) =
        true := by
      rw [← hrev]
      exact hch1
    obtain ⟨m2, hrun2, hch2, hstr2, hval2, _⟩ := q_reverse_spec fuel m1 _ b bs hch1b hlen
    have hback : (b :: bs).reverse = a :: as := by
      rw [← hrev, List.reverse_reverse]
    have hlast : (b :: bs).getLast? = some a := by
      rw [← hrev, List.getLast?_reverse]
      rfl
    have hfirst : some b = (a :: as).getLast? := by
      rw [← List.head?_reverse, hrev]
      rfl
    refine ⟨m1, _, m2, _, hrun1, hrun2, ?_, ?_, rfl, ?_, ?_⟩
    · simp only [hlast, hh]
    · simp only [hfirst, ht]
    · simp only [hlast]
      rw [hlast, hback] at hch2
      exact hch2
    · rw [valuesOf_congr m1 m2 _ hval2 hstr2, valuesOf_congr m m1 _ hval1 hstr1]
      exact hv

theorem isChain_nodes_eq (m m2 : Mem) (as : List Addr)
    (hval : ∀ x, (m2.nodes x).map (fun nd => nd.value) =
      (m.nodes x).map (fun nd => nd.value)) :
    ∀ p, isChain m p as = true → isChain m2 p as = true →
      ∀ x ∈ as, m2.nodes x = m.nodes x := by
  induction as with
  | nil => intro _ _ _ x hx; exact absurd hx (List.not_mem_nil x)
  | cons a as ih =>
    intro p h1 h2 x hx
    obtain ⟨_, nd, hnd, hc⟩ := (isChain_cons m p a as).1 h1
    obtain ⟨_, nd2, hnd2, hc2⟩ := (isChain_cons m2 p a as).1 h2
    have hnext : nd2.next = nd.next := by
      rw [isChain_head m nd.next as hc, isChain_head m2 nd2.next as hc2]
    have hvalue : nd2.value = nd.value := by
      have := hval a
      simpa [hnd, hnd2] using this
    have hnn : nd2 = nd := by
      cases nd
      cases nd2
      simp only at hnext hvalue
      rw [hnext, hvalue]
    rcases List.mem_cons.1 hx with hxa | hxs
    · rw [hxa, hnd, hnd2, hnn]
    · rw [hnext] at hc2
      exact ih nd.next hc hc2 x hxs

/-- C13: for a queue whose chain from head is `as` (with fuel for every node),
two calls of `q_reverse` return the heap exactly as it was before (every node
with its string and its `next`, so the values are read in the original order)
and a queue with the original `head` and `size`, whose `tail` is the last node
of the chain; for an empty queue `tail` is untouched.  So a queue whose `tail`
is the last node of its chain, or which is empty, is returned unchanged; an
absent queue is returned as it is. -/
theorem q_reverse_involutive (fuel : Nat) (m : Mem) (q : queue_t) (as : List Addr)
    (hc : isChain m q.head as = true) (hfuel : as.length ≤ fuel) :
    (∃ m1 q1 q2, q_reverse fuel m (some q) = some (m1, some q1) ∧
        q_reverse fuel m1 (some q1) = some (m, some q2) ∧
        q2.head = q.head ∧ q2.size = q.size ∧
        (∀ k, valuesFrom k m q2.head = valuesFrom k m q.head) ∧
        (as ≠ [] → q2.tail = as.getLast?) ∧ (as = [] → q2.tail = q.tail) ∧
        (q.tail = as.getLast? → q2 = q)) ∧
      q_reverse fuel m none = some (m, none) := by
  refine ⟨?_, rfl⟩
  cases as with
  | nil =>
    have hh : q.head = none := (isChain_nil m q.head).1 hc
    have hrun : q_reverse fuel m (some q) = some (m, some q) := by
      unfold q_reverse
      simp only [hh]
    exact ⟨m, q, q, hrun, hrun, rfl, rfl, fun _ => rfl, fun h => absurd rfl h,
      fun _ => rfl, fun _ => rfl⟩
  | cons a as =>
    have hh : q.head = some a := ((isChain_cons m q.head a as).1 hc).1
    obtain ⟨m1, hrun1, hch1, hstr1, hval1, hfr1⟩ :=
      q_reverse_spec fuel m q a as hc (by simpa using hfuel)
    cases hrev : (a :: as).reverse with
    | nil => simp at hrev
    | cons b bs =>
      have hlen : bs.length + 1 ≤ fuel := by
        have := congrArg List.length hrev
        simp only [List.length_reverse, List.length_cons] at this hfuel
        omega
      have hch1b : isChain m1 (⟨(a :: as).getLast?, some a, q.size⟩ : queue_t).head
          (b :: bs) = true := by
        rw [← hrev]
        exact hch1
      obtain ⟨m2, hrun2, hch2, hstr2, hval2, hfr2⟩ :=
        q_reverse_spec fuel m1 _ b bs hch1b hlen
      have hback : (b :: bs).reverse = a :: as := by
        rw [← hrev, List.reverse_reverse]
      have hlast : (b :: bs).getLast? = some a := by
        rw [← hrev, List.getLast?_reverse]
        rfl
      have hfirst : some b = (a :: as).getLast? := by
        rw [← List.head?_reverse, hrev]
        rfl
      rw [hlast, hback] at hch2
      have hval : ∀ x, (m2.nodes x).map (fun nd => nd.value) =
          (m.nodes x).map (fun nd => nd.value) := fun x => by rw [hval2 x, hval1 x]
      have hc1 : isChain m (some a) (a :: as) = true := by rw [← hh]; exact hc
      have hnodes : m2.nodes = m.nodes := by
        funext x
        by_cases hx : x ∈ a :: as
        · exact isChain_nodes_eq m m2 (a :: as) hval (some a) hc1 hch2 x hx
        · have hx2 : x ∉ b :: bs := by
            rw [← hrev]
            intro hmem
            exact hx (List.mem_reverse.1 hmem)
          rw [hfr2 x hx2, hfr1 x hx]
      have hm : m2 = m := by
        cases m2
        cases m
        simp only at hnodes hstr2 hstr1
        simp only [Mem.mk.injEq]
        exact ⟨hnodes, by rw [hstr2, hstr1]⟩
      rw [hm, hlast, hfirst] at hrun2
      refine ⟨m1, _, _, hrun1, hrun2, hh.symm, rfl, ?_, fun _ => rfl,
        fun h => absurd h (by simp), ?_⟩
      · intro k
        simp only [hh]
      · intro ht
        cases q
        simp only at hh ht
        simp only [hh, ht]

/-- Witness of C13: the queue `"a"`, `"b"` is reversed twice. -/
theorem q_reverse_involutive_witness :
    (∃ m1 q1 q2, q_reverse 2 mem2 (some queue2) = some (m1, some q1) ∧
        q_reverse 2 m1 (some q1) = some (mem2, some q2) ∧
        q2.head = queue2.head ∧ q2.size = queue2.size ∧
        (∀ k, valuesFrom k mem2 q2.head = valuesFrom k mem2 queue2.head) ∧
        ([1, 2] ≠ [] → q2.tail = [1, 2].getLast?) ∧ ([1, 2] = [] → q2.tail = queue2.tail) ∧
        (queue2.tail = [1, 2].getLast? → q2 = queue2)) ∧
      q_reverse 2 mem2 none = some (mem2, none) :=
  q_reverse_involutive 2 mem2 queue2 [1, 2] (by decide) (by decide)

/-- C14: after `q_insert_tail(q, "b")`, `q_insert_tail(q, "a")` and
`q_insert_tail(q, "c")` the values read from head are `"b"`, `"a"`, `"c"`, and
they are still `"b"`, `"a"`, `"c"` after `q_sort`. -/
theorem q_sort_leaves_bac :
    (run bacOps (emptyMem, q0)).map (fun st => valuesFrom 8 st.1 st.2.head) =
      some (some [[98], [97], [99]]) ∧
    (run (bacOps ++ [.sort]) (emptyMem, q0)).map (fun st => valuesFrom 8 st.1 st.2.head) =
      some (some [[98], [97], [99]]) :=
  ⟨rfl, rfl⟩

/-- C15: `q_sort` returns the heap and the queue it was given, for every queue
(absent, empty, with one element, already in order or not): the order of
values, `head`, `tail` and `size` are unchanged. -/
theorem q_sort_unchanged (m : Mem) (q : Option queue_t) (fuel : Nat) :
    q_sort m q = (m, q) ∧
      valuesFrom fuel (q_sort m q).1 ((q_sort m q).2.bind (fun qq => qq.head)) =
        valuesFrom fuel m (q.bind (fun qq => qq.head)) ∧
      q_size (q_sort m q).2 = q_size q :=
  ⟨rfl, rfl, rfl⟩

/-- C16: the values read from head after `q_sort` twice are those read after
`q_sort` once (the heap and the queue are the same). -/
theorem q_sort_idempotent (m : Mem) (q : Option queue_t) (fuel : Nat) :
    q_sort (q_sort m q).1 (q_sort m q).2 = q_sort m q ∧
      valuesFrom fuel (q_sort (q_sort m q).1 (q_sort m q).2).1
          ((q_sort (q_sort m q).1 (q_sort m q).2).2.bind (fun qq => qq.head)) =
        valuesFrom fuel (q_sort m q).1 ((q_sort m q).2.bind (fun qq => qq.head)) :=
  ⟨rfl, rfl⟩

/-- C18: after `q_insert_head(q, "a")`, `q_remove_head(q, NULL, 0)` and
`q_insert_tail(q, "b")`, where `malloc` hands out the released blocks again,
`q_free` returns with the node block 1 and the string block 1 still allocated;
when `malloc` returns other blocks, `q_insert_tail` writes through the released
node 1 and has no defined result.  `q_free` right after `q_new`, and `q_free`
of an absent queue, leave the heap as it is. -/
theorem q_free_after_drain_leaks :
    ((run (drainOps ++ [.insert_tail [98] (some 1) (some 1)]) (emptyMem, q0)).bind
        (fun st => q_free 8 st.1 (some st.2))).map (fun m => (m.nodes 1, m.strs 1)) =
      some (some ⟨1, some 1⟩, some [98, 0]) ∧
    (run drainOps (emptyMem, q0)).map
        (fun st => (st.2.tail, st.1.nodes 1,
          allocOk st.1 (.insert_tail [98] (some 2) (some 2)),
          (step st (.insert_tail [98] (some 2) (some 2))).isNone)) =
      some (some 1, none, true, true) ∧
    (q_free 8 emptyMem (q_new (some 0))).map (fun m => (m.nodes 1, m.strs 1)) =
      some (none, none) ∧
    (q_free 8 mem2 none).map (fun m => (m.nodes 1, m.strs 1)) =
      some (mem2.nodes 1, mem2.strs 1) :=
  ⟨rfl, rfl, rfl, rfl⟩

/-! ## Well-formed queues -/

theorem isChain_live (m : Mem) (as : List Addr) :
    ∀ p, isChain m p as = true → ∀ x ∈ as, m.nodes x ≠ none := by
  induction as with
  | nil => intro _ _ x hx; exact absurd hx (List.not_mem_nil x)
  | cons a as ih =>
    intro p h x hx
    obtain ⟨_, nd, hnd, hc⟩ := (isChain_cons m p a as).1 h
    rcases List.mem_cons.1 hx with hxa | hxs
    · rw [hxa, hnd]
      simp
    · exact ih nd.next hc x hxs

theorem isChain_snoc (m m1 : Mem) (old t v w : Addr) (init : List Addr)
    (hold : m1.nodes old = some ⟨v, some t⟩) (ht : m1.nodes t = some ⟨w, none⟩)
    (hfr : ∀ x, x ≠ old → x ≠ t → m1.nodes x = m.nodes x) :
    ∀ p, isChain m p (init ++ [old]) = true → old ∉ init → t ∉ init →
      isChain m1 p (init ++ [old, t]) = true := by
  induction init with
  | nil =>
    intro p h _ _
    simp only [List.nil_append] at h ⊢
    obtain ⟨hp, _⟩ := (isChain_cons m p old []).1 h
    rw [isChain_cons]
    refine ⟨hp, _, hold, ?_⟩
    rw [isChain_cons]
    exact ⟨rfl, _, ht, rfl⟩
  | cons c init ih =>
    intro p h ho htn
    simp only [List.cons_append] at h ⊢
    obtain ⟨hp, nd, hnd, hc⟩ := (isChain_cons m p c (init ++ [old])).1 h
    have hco : c ≠ old := fun hh => ho (hh ▸ List.mem_cons_self c init)
    have hct : c ≠ t := fun hh => htn (hh ▸ List.mem_cons_self c init)
    rw [isChain_cons]
    refine ⟨hp, nd, ?_, ?_⟩
    · rw [hfr c hco hct]
      exact hnd
    · exact ih nd.next hc (fun hh => ho (List.mem_cons_of_mem c hh))
        (fun hh => htn (List.mem_cons_of_mem c hh))

theorem WellFormed_insert_head (m : Mem) (q : queue_t) (as : List Addr) (s : List Nat)
    (h p : Addr) (hwf : WellFormed m q as) (hfresh : m.nodes h = none) :
    ∃ m1 q1, q_insert_head m (some q) s (some h) (some p) = some (true, m1, some q1) ∧
      WellFormed m1 q1 (h :: as) := by
  obtain ⟨hc, ht, hs⟩ := hwf
  refine ⟨_, _, q_insert_head_ok m q s h p, ?_, ?_, ?_⟩
  · rw [isChain_cons]
    refine ⟨rfl, _, upd_same _ h _, ?_⟩
    have hfr : ∀ x ∈ as,
        (⟨upd (upd m.nodes h (some ⟨0, none⟩)) h (some ⟨p, q.head⟩),
          upd m.strs p (some (cstr s ++ [0]))⟩ : Mem).nodes x = m.nodes x := by
      intro x hx
      have hxh : x ≠ h := fun hh => isChain_live m as q.head hc x hx (hh ▸ hfresh)
      simp only [upd_other _ h x _ hxh]
    rw [isChain_frame m _ as q.head hfr]
    exact hc
  · cases as with
    | nil =>
      have : q.tail = none := by simpa using ht
      simp [this]
    | cons b bs =>
      have hne : q.tail ≠ none := by
        rw [ht]
        intro hh
        exact absurd (List.getLast?_eq_none_iff.1 hh) (by simp)
      simp only [hne, if_false, List.getLast?_cons_cons]
      exact ht
  · simp only [List.length_cons, hs]
    push_cast
    ring

theorem q_insert_tail_empty (m : Mem) (q : queue_t) (s : List Nat) (t p : Addr)
    (ht : q.tail = none) :
    q_insert_tail m (some q) s (some t) (some p) =
      some (true,
        ⟨upd (upd m.nodes t (some ⟨0, none⟩)) t (some ⟨p, none⟩),
          upd m.strs p (some (cstr s ++ [0]))⟩,
        some ⟨some t, some t, q.size + 1⟩) := by
  unfold q_insert_tail
  simp only [strncpy_block, ht]

theorem q_insert_tail_link (m : Mem) (q : queue_t) (s : List Nat) (t p old : Addr)
    (nd : list_ele_t) (ht : q.tail = some old)
    (hn : upd (upd m.nodes t (some ⟨0, none⟩)) t (some ⟨p, none⟩) old = some nd) :
    q_insert_tail m (some q) s (some t) (some p) =
      some (true,
        ⟨upd (upd (upd m.nodes t (some ⟨0, none⟩)) t (some ⟨p, none⟩)) old
            (some ⟨nd.value, some t⟩),
          upd m.strs p (some (cstr s ++ [0]))⟩,
        some ⟨q.head, some t, q.size + 1⟩) := by
  unfold q_insert_tail
  simp only [strncpy_block, ht, hn]

theorem WellFormed_insert_tail (m : Mem) (q : queue_t) (as : List Addr) (s : List Nat)
    (t p : Addr) (hwf : WellFormed m q as) (hfresh : m.nodes t = none) :
    ∃ m1 q1, q_insert_tail m (some q) s (some t) (some p) = some (true, m1, some q1) ∧
      WellFormed m1 q1 (as ++ [t]) := by
  obtain ⟨hc, ht, hs⟩ := hwf
  rcases List.eq_nil_or_concat as with hnil | ⟨init, old, hcat⟩
  · subst hnil
    have htl : q.tail = none := by simpa using ht
    refine ⟨_, _, q_insert_tail_empty m q s t p htl, ?_, rfl, ?_⟩
    · simp only [List.nil_append]
      rw [isChain_cons]
      exact ⟨rfl, _, upd_same _ t _, rfl⟩
    · simp only [List.nil_append, List.length_cons, List.length_nil, hs]
      rfl
  · rw [List.concat_eq_append] at hcat
    subst hcat
    have htl : q.tail = some old := by rw [ht, List.getLast?_concat]
    obtain ⟨nd, hnd, hnext⟩ := isChain_last m init old q.head hc
    have hot : old ≠ t := fun hh => by
      rw [hh, hfresh] at hnd
      exact absurd hnd (by simp)
    have hn : upd (upd m.nodes t (some ⟨0, none⟩)) t (some ⟨p, none⟩) old = some nd := by
      rw [upd_other _ t old _ hot, upd_other _ t old _ hot]
      exact hnd
    have hnodup := isChain_nodup m (init ++ [old]) q.head hc
    have hoi : old ∉ init := by
      intro hh
      have := List.nodup_append.1 hnodup
      exact this.2.2 hh (List.mem_singleton_self old)
    have hti : t ∉ init := fun hh =>
      isChain_live m (init ++ [old]) q.head hc t (List.mem_append_left _ hh) hfresh
    refine ⟨_, _, q_insert_tail_link m q s t p old nd htl hn, ?_, ?_, ?_⟩
    · rw [List.append_assoc]
      refine isChain_snoc m _ old t nd.value p init (upd_same _ old _) ?_ ?_ q.head hc hoi hti
      · simp only
        rw [upd_other _ old t _ (fun hh => hot hh.symm)]
        exact upd_same _ t _
      · intro x hxo hxt
        simp only
        rw [upd_other _ old x _ hxo, upd_other _ t x _ hxt, upd_other _ t x _ hxt]
    · simp
    · simp only [List.length_append, List.length_cons, List.length_nil, hs]
      push_cast
      ring

theorem WellFormed_reverse (m : Mem) (q : queue_t) (as : List Addr) (fuel : Nat)
    (hwf : WellFormed m q as) (hfuel : as.length ≤ fuel) :
    ∃ m1 q1, q_reverse fuel m (some q) = some (m1, some q1) ∧
      WellFormed m1 q1 as.reverse := by
  obtain ⟨hc, ht, hs⟩ := hwf
  cases as with
  | nil =>
    have hh : q.head = none := (isChain_nil m q.head).1 hc
    refine ⟨m, q, ?_, hc, ht, hs⟩
    unfold q_reverse
    simp only [hh]
  | cons a as =>
    obtain ⟨m1, hrun, hch, _, _, _⟩ :=
      q_reverse_spec fuel m q a as hc (by simpa using hfuel)
    refine ⟨m1, _, hrun, hch, ?_, ?_⟩
    · simp only [List.getLast?_reverse, List.head?_cons]
    · simp only [List.length_reverse]
      exact hs

theorem q_remove_head_true (m : Mem) (q : queue_t) (sp : Option (List Nat)) (bufsize : Nat)
    (m1 : Mem) (q1 : queue_t) (sp1 : Option (List Nat))
    (h : q_remove_head m (some q) sp bufsize = some (true, m1, some q1, sp1)) :
    ∃ a nd, q.head = some a ∧ m.nodes a = some nd ∧
      m1 = ⟨upd m.nodes a none, upd m.strs nd.value none⟩ ∧
      q1 = ⟨nd.next, q.tail, q.size - 1⟩ := by
  unfold q_remove_head at h
  cases hh : q.head with
  | none =>
    simp only [hh, Option.some.injEq, Prod.mk.injEq] at h
    exact absurd h.1 (by simp)
  | some a =>
    simp only [hh] at h
    cases hn : m.nodes a with
    | none => simp only [hn] at h; exact absurd h (by simp)
    | some nd =>
      simp only [hn] at h
      cases hs : m.strs nd.value with
      | none => simp only [hs] at h; exact absurd h (by simp)
      | some bytes =>
        simp only [hs] at h
        split at h
        · exact absurd h (by simp)
        · simp only [Option.some.injEq, Prod.mk.injEq, true_and] at h
          exact ⟨a, nd, rfl, hn, h.1.symm, h.2.1.symm⟩

theorem WellFormed_remove_head (m : Mem) (q : queue_t) (a b : Addr) (rest : List Addr)
    (sp : Option (List Nat)) (bufsize : Nat) (m1 : Mem) (q1 : queue_t)
    (sp1 : Option (List Nat)) (hwf : WellFormed m q (a :: b :: rest))
    (h : q_remove_head m (some q) sp bufsize = some (true, m1, some q1, sp1)) :
    WellFormed m1 q1 (b :: rest) := by
  obtain ⟨hc, ht, hs⟩ := hwf
  obtain ⟨a1, nd1, hh, hn, hm1, hq1⟩ := q_remove_head_true m q sp bufsize m1 q1 sp1 h
  obtain ⟨hp, nd, hnd, hrest⟩ := (isChain_cons m q.head a (b :: rest)).1 hc
  have haa : a1 = a := by
    rw [hh] at hp
    exact Option.some.inj hp
  subst haa
  have hndd : nd1 = nd := by
    rw [hn] at hnd
    exact Option.some.inj hnd
  subst hndd
  subst hm1
  subst hq1
  have hnm : a1 ∉ b :: rest := isChain_head_not_mem m q.head a1 (b :: rest) hc
  refine ⟨?_, ?_, ?_⟩
  · rw [isChain_frame m _ (b :: rest) nd1.next
      (fun x hx => upd_other m.nodes a1 x none (fun hxa => hnm (hxa ▸ hx)))]
    exact hrest
  · simp only
    rw [ht, List.getLast?_cons_cons]
  · simp only [hs, List.length_cons]
    push_cast
    ring

/-- C19: for a well-formed queue with chain `as` (finite acyclic chain from
head, tail `NULL` for the empty chain and its last node otherwise, size the
chain length): `q_insert_head` and `q_insert_tail` with both allocations
successful (the node block not allocated before) return true and leave a
well-formed queue with chain `h :: as`, respectively `as ++ [t]`; `q_reverse`
with fuel for every node returns a well-formed queue with chain `as.reverse`;
`q_sort` leaves the queue well-formed; and when the chain has at least two
nodes, every `q_remove_head` call that returns true leaves a well-formed queue
with the chain without its first node (the call returns true when the head
string is allocated and the buffer arguments are valid). -/
theorem WellFormed_preserved (m : Mem) (q : queue_t) (as : List Addr)
    (hwf : WellFormed m q as) :
    (∀ s h p, m.nodes h = none →
      ∃ m1 q1, q_insert_head m (some q) s (some h) (some p) = some (true, m1, some q1) ∧
        WellFormed m1 q1 (h :: as)) ∧
    (∀ s t p, m.nodes t = none →
      ∃ m1 q1, q_insert_tail m (some q) s (some t) (some p) = some (true, m1, some q1) ∧
        WellFormed m1 q1 (as ++ [t])) ∧
    (∀ fuel, as.length ≤ fuel →
      ∃ m1 q1, q_reverse fuel m (some q) = some (m1, some q1) ∧
        WellFormed m1 q1 as.reverse) ∧
    (∃ q1, q_sort m (some q) = (m, some q1) ∧ WellFormed m q1 as) ∧
    (∀ a b rest sp bufsize m1 q1 sp1, as = a :: b :: rest →
      q_remove_head m (some q) sp bufsize = some (true, m1, some q1, sp1) →
        WellFormed m1 q1 (b :: rest)) ∧
    (∀ a b rest sp bufsize nd bytes, as = a :: b :: rest → m.nodes a = some nd →
      m.strs nd.value = some bytes → bufOk sp bufsize →
        ∃ m1 q1 sp1, q_remove_head m (some q) sp bufsize =
          some (true, m1, some q1, sp1)) := by
  refine ⟨?_, ?_, ?_, ⟨q, rfl, hwf⟩, ?_, ?_⟩
  · intro s h p hfresh
    exact WellFormed_insert_head m q as s h p hwf hfresh
  · intro s t p hfresh
    exact WellFormed_insert_tail m q as s t p hwf hfresh
  · intro fuel hfuel
    exact WellFormed_reverse m q as fuel hwf hfuel
  · intro a b rest sp bufsize m1 q1 sp1 has h
    subst has
    exact WellFormed_remove_head m q a b rest sp bufsize m1 q1 sp1 hwf h
  · intro a b rest sp bufsize nd bytes has hnd hs hb
    subst has
    have hh : q.head = some a := ((isChain_cons m q.head a (b :: rest)).1 hwf.1).1
    cases sp with
    | none => exact ⟨_, _, _, q_remove_head_none m q a nd bytes bufsize hh hnd hs⟩
    | some buf =>
      obtain ⟨h1, h2, h3⟩ := hb
      exact ⟨_, _, _, q_remove_head_some m q a nd bytes buf _ bufsize hh hnd hs
        (copy_out_eq buf bytes bufsize h1 h2 h3)⟩

/-- Witness of C19: the well-formed queue `"a"`, `"b"`; an insertion at the
head, an insertion at the tail, a reversal and a removal keep it well-formed. -/
theorem WellFormed_preserved_witness :
    WellFormed mem2 queue2 [1, 2] ∧
    (∃ m1 q1, q_insert_head mem2 (some queue2) [99] (some 3) (some 3) =
        some (true, m1, some q1) ∧ WellFormed m1 q1 [3, 1, 2]) ∧
    (∃ m1 q1, q_insert_tail mem2 (some queue2) [99] (some 3) (some 3) =
        some (true, m1, some q1) ∧ WellFormed m1 q1 ([1, 2] ++ [3])) ∧
    (∃ m1 q1, q_reverse 2 mem2 (some queue2) = some (m1, some q1) ∧
        WellFormed m1 q1 [1, 2].reverse) ∧
    WellFormed ⟨upd mem2.nodes 1 none, upd mem2.strs 1 none⟩ ⟨some 2, some 2, 2 - 1⟩ [2] :=
  ⟨⟨by decide, by decide, by decide⟩,
    (WellFormed_preserved mem2 queue2 [1, 2] ⟨by decide, by decide, by decide⟩).1
      [99] 3 3 (by decide),
    (WellFormed_preserved mem2 queue2 [1, 2] ⟨by decide, by decide, by decide⟩).2.1
      [99] 3 3 (by decide),
    (WellFormed_preserved mem2 queue2 [1, 2] ⟨by decide, by decide, by decide⟩).2.2.1
      2 (by decide),
    (WellFormed_preserved mem2 queue2 [1, 2] ⟨by decide, by decide, by decide⟩).2.2.2.2.1
      1 2 [] none 0 _ _ none rfl rfl⟩

theorem headValue_some (m : Mem) (q : queue_t) (V : List Nat)
    (hv : headValue m q = some V) :
    ∃ a nd bytes, q.head = some a ∧ m.nodes a = some nd ∧
      m.strs nd.value = some bytes ∧ cstr bytes = V := by
  unfold headValue at hv
  cases hh : q.head with
  | none => simp [hh] at hv
  | some a =>
    cases hn : m.nodes a with
    | none => simp [hh, hn] at hv
    | some nd =>
      cases hs : m.strs nd.value with
      | none => simp [hh, hn, hs] at hv
      | some bytes =>
        simp [hh, hn, hs] at hv
        exact ⟨a, nd, bytes, rfl, hn, hs, hv⟩

/-- C20: on a non-empty queue with head value `V`, with a supplied buffer and
`1 ≤ bufsize`, `q_remove_head` returns true and the buffer afterwards is the
first `k - 1` bytes of `V`, one terminator, and the bytes the buffer held from
index `k` on, where `k = min bufsize (len V + 1)`: the buffer keeps its
length and every byte at an index `≥ k` keeps its content. -/
theorem q_remove_head_writes (m : Mem) (q : queue_t) (V buf : List Nat) (bufsize : Nat)
    (hv : headValue m q = some V) (h1 : 1 ≤ bufsize) (hlen : bufsize ≤ buf.length)
    (hsz : bufsize < SIZE_MOD) :
    ∃ m1 q1 out, q_remove_head m (some q) (some buf) bufsize =
        some (true, m1, some q1, some out) ∧
      out = V.take (min bufsize (V.length + 1) - 1) ++
        0 :: buf.drop (min bufsize (V.length + 1)) ∧
      out.length = buf.length ∧
      (∀ i, min bufsize (V.length + 1) ≤ i → out[i]? = buf[i]?) := by
  obtain ⟨a, nd, bytes, hh, hn, hs, hV⟩ := headValue_some m q V hv
  have hc := copy_out_eq buf bytes bufsize h1 hlen hsz
  have hsl : strlen bytes = V.length := by
    unfold strlen
    rw [hV]
  rw [hsl, hV] at hc
  obtain ⟨k, hk⟩ : ∃ k, min bufsize (V.length + 1) = k + 1 :=
    ⟨min bufsize (V.length + 1) - 1, by omega⟩
  have hkV : k ≤ V.length := by omega
  have hkb : k + 1 ≤ buf.length := by omega
  have htl : (V.take k).length = k := by
    rw [List.length_take]
    omega
  refine ⟨_, _, _, q_remove_head_some m q a nd bytes buf _ bufsize hh hn hs hc, rfl, ?_, ?_⟩
  · rw [hk, Nat.add_sub_cancel, List.length_append, htl, List.length_cons, List.length_drop]
    omega
  · intro i hi
    rw [hk] at hi ⊢
    rw [Nat.add_sub_cancel, List.getElem?_append_right (by omega), htl]
    obtain ⟨j, hj⟩ : ∃ j, i - k = j + 1 := ⟨i - k - 1, by omega⟩
    rw [hj, List.getElem?_cons_succ, List.getElem?_drop]
    congr 1
    omega

/-- Witness of C20: the value `"ab"` is removed into a buffer of five bytes
with `bufsize = 2`. -/
theorem q_remove_head_writes_witness :
    ∃ m1 q1 out, q_remove_head mem1 (some queue1) (some [7, 7, 7, 7, 7]) 2 =
        some (true, m1, some q1, some out) ∧
      out = [97, 98].take (min 2 ([97, 98].length + 1) - 1) ++
        0 :: [7, 7, 7, 7, 7].drop (min 2 ([97, 98].length + 1)) ∧
      out.length = [7, 7, 7, 7, 7].length ∧
      (∀ i, min 2 ([97, 98].length + 1) ≤ i → out[i]? = [7, 7, 7, 7, 7][i]?) :=
  q_remove_head_writes mem1 queue1 [97, 98] [7, 7, 7, 7, 7] 2
    (by decide) (by decide) (by decide) (by decide)

end QueueC
